import Mathlib

/-!
Verification of the sky-location marginalization engine
(class SkyDictionary, cogwheel/likelihood/marginalization/skydict.py).

The engine precomputes sky samples, discretizes their inter-detector
arrival-time delays into integer keys, buckets sample indices by key
(delays2inds_map), and builds two dense lookup arrays over the observed
key range: a prior-density array (_sky_prior) and an array of cyclic
sample-index generators (_ind_generators).  The query path
(get_sky_inds_and_prior) filters integer delay queries by range and by
density and draws sample indices round-robin from the generators.

Delays and densities are modelled with exact rationals; the machine
floats of the source are treated as exact arithmetic.  A discretized
delay key is a List of ints of length n_det - 1; numpy integer indexing
(with Python negative-index wraparound) is modelled explicitly.
-/

namespace SkyDict

/-- numpy.rint: round to nearest integer, halves to even
(used by SkyDictionary._discretize). -/
def rintQ (x : ℚ) : ℤ :=
  let f : ℤ := ⌊x⌋
  let r : ℚ := x - f
  if r < 1/2 then f
  else if 1/2 < r then f + 1
  else if Even f then f else f + 1

/-- SkyDictionary._discretize: delay in units of 1/f_sampling,
np.rint(delays * f_sampling). -/
def discretize (fs : ℚ) (x : ℚ) : ℤ := rintQ (x * fs)

section AssocMap

variable {κ : Type} [DecidableEq κ]

/-- One step of building delays2inds_map: append sample index i to the
bucket of key k (collections.defaultdict(list) semantics: a fresh key is
appended at the end, an existing key keeps its position and its bucket
grows at the end). -/
def addKey (m : List (κ × List ℕ)) (i : ℕ) (k : κ) : List (κ × List ℕ) :=
  match m with
  | [] => [(k, [i])]
  | kv :: rest => if kv.1 = k then (kv.1, kv.2 ++ [i]) :: rest else kv :: addKey rest i k

/-- The loop of SkyDictionary._create_delays2inds_map:
for i_sample, delays_key in enumerate(delays_keys): map[key].append(i). -/
def delays2indsMapAux (i : ℕ) (ks : List κ) (m : List (κ × List ℕ)) : List (κ × List ℕ) :=
  match ks with
  | [] => m
  | k :: t => delays2indsMapAux (i + 1) t (addKey m i k)

/-- SkyDictionary._create_delays2inds_map, as a function of the list of
per-sample discretized delay keys. -/
def delays2indsMap (ks : List κ) : List (κ × List ℕ) := delays2indsMapAux 0 ks []

/-- The keys of the delay index, in insertion order
(list(self.delays2inds_map)). -/
def mapKeys (m : List (κ × List ℕ)) : List κ := m.map Prod.fst

/-- Bucket of a key: delays2inds_map[key] (empty when the key is absent). -/
def bucket (m : List (κ × List ℕ)) (k : κ) : List ℕ :=
  ((m.find? fun kv => decide (kv.1 = k)).map Prod.snd).getD []

/-- Indices counted from i0 whose key equals k, in order: the reference
value of a bucket. -/
def matchingIdx (i0 : ℕ) (ks : List κ) (k : κ) : List ℕ :=
  match ks with
  | [] => []
  | k0 :: t => if k0 = k then i0 :: matchingIdx (i0 + 1) t k else matchingIdx (i0 + 1) t k

end AssocMap

/-- np.min(arr, axis=0) on a nonempty list of int rows of equal length
(numpy raises on an empty array; the empty case returns the unused []). -/
def ewMin : List (List ℤ) → List ℤ
  | [] => []
  | k :: t => t.foldl (List.zipWith min) k

/-- np.max(arr, axis=0) on a nonempty list of int rows of equal length. -/
def ewMax : List (List ℤ) → List ℤ
  | [] => []
  | k :: t => t.foldl (List.zipWith max) k

/-- numpy integer indexing into one axis of extent s: a nonnegative
index is used as is, a negative index wraps around (Python semantics);
an out-of-bounds index raises, modelled as none. -/
def npIndex (s : ℕ) (k : ℤ) : Option ℕ :=
  if 0 ≤ k ∧ k < (s : ℤ) then some k.toNat
  else if -(s : ℤ) ≤ k ∧ k < 0 then some (k + s).toNat
  else none

/-- numpy integer indexing with a key tuple into a multi-dimensional
array of the given per-axis extents: the cell actually addressed
(none when some component raises, or on a rank mismatch). -/
def npCellList : List ℕ → List ℤ → Option (List ℕ)
  | [], [] => some []
  | s :: st, k :: kt =>
    match npIndex s k, npCellList st kt with
    | some i, some c => some (i :: c)
    | _, _ => none
  | _, _ => none

/-- Per-axis extents of the dense arrays:
self._max_delay - self._min_delay + 1. -/
def arrSizes (mn mx : List ℤ) : List ℕ := List.zipWith (fun a b => (b - a + 1).toNat) mn mx

/-- The write loops populating the dense arrays: for key, inds in
delays2inds_map.items(): arr[key] = f(key, inds).  Both _ind_generators
and _sky_prior are populated this way; an out-of-bounds key would raise
in the source and is modelled as a skipped write (the relevant theorems
carry hypotheses under which every write is in bounds). -/
def denseWrite {β : Type} (sz : List ℕ) (f : List ℤ × List ℕ → β)
    (base : List ℕ → β) (m : List (List ℤ × List ℕ)) : List ℕ → β :=
  m.foldl (fun arr kv =>
    match npCellList sz kv.1 with
    | some c => Function.update arr c (f kv)
    | none => arr) base

/-- self._min_delay = np.min(np.array(list(self.delays2inds_map)), axis=0). -/
def skyDictMinDelay (keys : List (List ℤ)) : List ℤ := ewMin (mapKeys (delays2indsMap keys))

/-- self._max_delay. -/
def skyDictMaxDelay (keys : List (List ℤ)) : List ℤ := ewMax (mapKeys (delays2indsMap keys))

/-- Extents of _sky_prior and _ind_generators: _max_delay - _min_delay + 1. -/
def skyDictSizes (keys : List (List ℤ)) : List ℕ :=
  arrSizes (skyDictMinDelay keys) (skyDictMaxDelay keys)

/-- self._sky_prior: dense array with
arr[key] = f_sampling ** (n_det - 1) * len(inds) / nsky for each bucket
of the delay index, zeros elsewhere (d = n_det - 1; nsky = number of sky
samples = number of per-sample keys). -/
def skyPriorArr (fs : ℚ) (d : ℕ) (keys : List (List ℤ)) : List ℕ → ℚ :=
  denseWrite (skyDictSizes keys)
    (fun kv => fs ^ d * (kv.2.length : ℚ) / (keys.length : ℚ))
    (fun _ => 0) (delays2indsMap keys)

/-- self._ind_generators: dense array holding, per populated cell, the
bucket list cycled by itertools.cycle; unpopulated cells hold the
exhausted sentinel iter(()), modelled as the empty list. -/
def genArr (keys : List (List ℤ)) : List ℕ → List ℕ :=
  denseWrite (skyDictSizes keys) (fun kv => kv.2) (fun _ => ([] : List ℕ))
    (delays2indsMap keys)

/-- The range filter of get_sky_inds_and_prior:
np.all((delays.T >= self._min_delay) & (delays.T <= self._max_delay), axis=1),
one query column at a time (false on a shape mismatch, which numpy
refuses to broadcast). -/
def inRangeB : List ℤ → List ℤ → List ℤ → Bool
  | [], [], [] => true
  | a :: mt, b :: xt, c :: qt => decide (a ≤ c) && decide (c ≤ b) && inRangeB mt xt qt
  | _, _, _ => false

/-- Componentwise condition under which every key of the observed
[min, max] range is in bounds for the dense arrays (0 lies in the range
on every axis); guarantees that raw-key numpy indexing never raises. -/
def originOK : List ℤ → List ℤ → Bool
  | [], [] => true
  | a :: t, b :: u => decide (a ≤ 0) && decide (0 ≤ b) && originOK t u
  | _, _ => false

/-- Pointwise less-or-equal on int vectors of equal length (broadcast
comparison semantics used by the range filter). -/
def pleB : List ℤ → List ℤ → Bool
  | [], [] => true
  | a :: t, b :: u => decide (a ≤ b) && pleB t u
  | _, _ => false

/-- Modelled from the spec: the offset addressing the spec describes for
the dense arrays, namely the cell whose coordinates are the key minus
the recorded elementwise minimum (kept for comparison with the raw-key
numpy addressing the source actually performs). -/
def specOffsetCell (mn k : List ℤ) : List ℕ :=
  List.zipWith (fun a b => (b - a).toNat) mn k

/-- Concrete two-sample configuration used by the witnesses: two sky
samples whose discretized delay keys (one non-reference detector) are
-1 and 1. -/
def exKeys : List (List ℤ) := [[-1], [1]]

/-- Concrete query columns used by the witnesses. -/
def exQueries : List (List ℤ) := [[-1], [0], [5], [1], [-1]]

/-- Outputs of get_sky_inds_and_prior.  A none entry in inds stands for
a StopIteration raised by an exhausted generator (never reached, C7). -/
structure QueryOut where
  inds : List (Option ℕ)
  priors : List ℚ
  mask : List Bool

/-- The query path of get_sky_inds_and_prior, one query (column of the
delays array) at a time, threading the cursor state of the cyclic
generators: a cursor at position p over a bucket l yields l[p mod len l]
(itertools.cycle semantics).  A query survives when it is in range and
the dense prior at its key is positive; only surviving queries advance a
cursor and contribute to sky_inds and sky_prior. -/
def runQueries (prior : List ℕ → ℚ) (gens : List ℕ → List ℕ)
    (mn mx : List ℤ) (sz : List ℕ) :
    List (List ℤ) → (List ℕ → ℕ) → QueryOut × (List ℕ → ℕ)
  | [], st => (⟨[], [], []⟩, st)
  | q :: qs, st =>
    if inRangeB mn mx q then
      match npCellList sz q with
      | some c =>
        if 0 < prior c then
          let out := runQueries prior gens mn mx sz qs (Function.update st c (st c + 1))
          (⟨(gens c).get? (st c % (gens c).length) :: out.1.inds,
            prior c :: out.1.priors, true :: out.1.mask⟩, out.2)
        else
          let out := runQueries prior gens mn mx sz qs st
          (⟨out.1.inds, out.1.priors, false :: out.1.mask⟩, out.2)
      | none =>
        let out := runQueries prior gens mn mx sz qs st
        (⟨out.1.inds, out.1.priors, false :: out.1.mask⟩, out.2)
    else
      let out := runQueries prior gens mn mx sz qs st
      (⟨out.1.inds, out.1.priors, false :: out.1.mask⟩, out.2)

/-- SkyDictionary.get_sky_inds_and_prior on a freshly constructed
dictionary (all cursors at their start), as a function of the per-sample
discretized delay keys and the query keys (d = n_det - 1). -/
def getSkyIndsAndPrior (fs : ℚ) (d : ℕ) (keys : List (List ℤ))
    (queries : List (List ℤ)) : QueryOut :=
  (runQueries (skyPriorArr fs d keys) (genArr keys) (skyDictMinDelay keys)
    (skyDictMaxDelay keys) (skyDictSizes keys) queries (fun _ => 0)).1

/-- The cursor state left behind by a call to get_sky_inds_and_prior on
a freshly constructed dictionary. -/
def queryFinalState (fs : ℚ) (d : ℕ) (keys : List (List ℤ))
    (queries : List (List ℤ)) : List ℕ → ℕ :=
  (runQueries (skyPriorArr fs d keys) (genArr keys) (skyDictMinDelay keys)
    (skyDictMaxDelay keys) (skyDictSizes keys) queries (fun _ => 0)).2

/-- The dense prior value looked up for a key: self._sky_prior[key]
(0 for an unaddressable key, which cannot occur for an in-range key once
construction has succeeded). -/
def priorAt (fs : ℚ) (d : ℕ) (keys : List (List ℤ)) (q : List ℤ) : ℚ :=
  ((npCellList (skyDictSizes keys) q).map (skyPriorArr fs d keys)).getD 0

/-- Whether a query survives both filters of get_sky_inds_and_prior:
in range, and nonzero dense prior at its key. -/
def surviveB (fs : ℚ) (d : ℕ) (keys : List (List ℤ)) (q : List ℤ) : Bool :=
  inRangeB (skyDictMinDelay keys) (skyDictMaxDelay keys) q &&
    decide (priorAt fs d keys q ≠ 0)

/-! ### Conditional delay-prior builder (delays_prior) -/

/-- Sum of squared antenna coefficients of a stacked list of
(F+, Fx) pairs: the squared Frobenius norm entering
np.linalg.norm(..., axis=(1, 2)). -/
def sumSqAll (cs : List (ℚ × ℚ)) : ℚ := (cs.map fun p => p.1 ^ 2 + p.2 ^ 2).sum

/-- Cube of the Euclidean norm of stacked antenna coefficients. -/
noncomputable def normCubed (cs : List (ℚ × ℚ)) : ℝ :=
  Real.sqrt ((sumSqAll cs : ℚ) : ℝ) ^ 3

/-- The histogram weight of sample i in SkyDictionary.__init__:
weights = np.linalg.norm(self.fplus_fcross_0, axis=(1, 2)) ** 3, computed
once, before the permutation loop, from the coefficients of ALL
detectors.  coeffs holds, per sample, the per-detector (F+, Fx) pair. -/
noncomputable def histWeight (coeffs : List (List (ℚ × ℚ))) (i : ℕ) : ℝ :=
  normCubed (coeffs.getD i [])

/-- Modelled from the spec (refinement comparison): the per-sample
weight the spec describes, the cube of the norm of the stacked
coefficients of the permutation's detectors only. -/
noncomputable def histWeightSpecVersion (coeffs : List (List (ℚ × ℚ)))
    (order : List ℕ) (i : ℕ) : ℝ :=
  normCubed (order.map fun j => (coeffs.getD i []).getD j (0, 0))

/-- Discretized delays of the permutation's later detectors relative to
its first, for sample i:
self._discretize(geocenter_delays[order[1:],] - geocenter_delays[order[0]]).
gd holds, per detector, the per-sample geocenter delays. -/
def permDelayKey (fs : ℚ) (gd : List (List ℚ)) (order : List ℕ) (i : ℕ) : List ℤ :=
  order.tail.map fun j =>
    discretize fs ((gd.getD j []).getD i 0 - (gd.getD (order.headD 0) []).getD i 0)

/-- One entry of delays_prior[order]: np.histogramdd over the
permutation delays with unit bins whose edges sit at half-integer
offsets, so each integer delay vector falls at the center of its own
bin; the entry at a bin is the sum of the weights of the samples whose
discretized permutation delay vector equals the bin center key. -/
noncomputable def delaysPriorEntry (fs : ℚ) (coeffs : List (List (ℚ × ℚ)))
    (gd : List (List ℚ)) (nsky : ℕ) (order : List ℕ) (key : List ℤ) : ℝ :=
  (((List.range nsky).filter fun i => decide (permDelayKey fs gd order i = key)).map
    (histWeight coeffs)).sum

/-- Modelled from the spec (refinement comparison): the same histogram
entry computed with the per-permutation weights the spec describes. -/
noncomputable def delaysPriorEntrySpecVersion (fs : ℚ) (coeffs : List (List (ℚ × ℚ)))
    (gd : List (List ℚ)) (nsky : ℕ) (order : List ℕ) (key : List ℤ) : ℝ :=
  (((List.range nsky).filter fun i => decide (permDelayKey fs gd order i = key)).map
    (histWeightSpecVersion coeffs order)).sum

/-! ### Timeseries resampler -/

/-- np.isclose with its default tolerances rtol = 1e-5 and atol = 1e-8,
on exact rationals. -/
def npIsClose (a b : ℚ) : Bool :=
  decide (|a - b| ≤ 1 / 100000000 + 1 / 100000 * |b|)

/-- The time-domain taper of resample_timeseries: the timeseries is
multiplied pointwise by the window values (scipy.signal.get_window is an
external primitive, passed as a function from index to value). -/
def applyWindow (w : ℕ → ℚ) (ts : List ℚ) : List ℚ :=
  ts.enum.map fun p => p.2 * w p.1

/-- SkyDictionary.resample_timeseries on a one-dimensional series.
times is the list of equally spaced sample positions; prim stands for
the external FFT resampling primitive scipy.signal.resample acting on
the values (unconstrained here); w stands for scipy.signal.get_window.
The ratio fs * (times[1] - times[0]) decides whether resampling runs;
int() truncation of len(times) * ratio gives the resampled length (the
floor below agrees with it since the relevant theorems assume a positive
grid spacing); scipy returns resampled positions
t0 + i * (dt * len(ts) / num).  The source raises the explicit
ValueError when the resampled spacing is not within np.isclose tolerance
of 1 / f_sampling, and an IndexError from reading times[1] when the
resampled grid has fewer than two points. -/
def resampleTimeseries (fs : ℚ) (prim : List ℚ → ℕ → List ℚ) (w : ℕ → ℚ)
    (useWindow : Bool) (ts times : List ℚ) : Except String (List ℚ × List ℚ) :=
  let ts1 := if useWindow then applyWindow w ts else ts
  let t0 := times.getD 0 0
  let dt := times.getD 1 0 - t0
  if fs * dt = 1 then .ok (ts1, times)
  else
    let num := (⌊(times.length : ℚ) * (fs * dt)⌋).toNat
    let newTimes := (List.range num).map fun (i : ℕ) =>
      t0 + (i : ℚ) * (dt * (ts.length : ℚ) / (num : ℚ))
    if 2 ≤ num then
      if npIsClose (1 / fs) (newTimes.getD 1 0 - newTimes.getD 0 0) then
        .ok (prim ts1 num, newTimes)
      else .error "ValueError"
    else .error "IndexError"

/-! ### Staged construction (SkyDictionary.__init__) -/

/-- Modelled from the spec: the geocenter delay of a detector at sample
i, through the external detector-geometry provider geom (cogwheel's
gw_utils is not among the sources); geom maps a known detector
identifier to a function from a (lat, lon) sample to its antenna
coefficients and geocenter delay, and has no entry for an unknown
identifier.  The default is only read after the provider lookup has
been checked. -/
def initDelayRow (geom : String → Option ((ℚ × ℚ) → (ℚ × ℚ) × ℚ))
    (halton : ℕ → ℚ × ℚ) (det : String) (i : ℕ) : ℚ :=
  (((geom det).getD (fun _ => ((0, 0), 0))) (halton i)).2

/-- The per-sample discretized delay keys built by __init__:
delays_keys = zip(*self._discretize(self.delays)).  With a single
detector the delays array has zero rows and zip() yields no keys at
all, for any number of samples. -/
def initKeys (dets : List String) (fs : ℚ) (nsky : ℕ) (halton : ℕ → ℚ × ℚ)
    (geom : String → Option ((ℚ × ℚ) → (ℚ × ℚ) × ℚ)) : List (List ℤ) :=
  match dets with
  | [] => []
  | det0 :: rest =>
    if rest = [] then []
    else (List.range nsky).map fun i =>
      rest.map fun det =>
        discretize fs (initDelayRow geom halton det i - initDelayRow geom halton det0 i)

/-- SkyDictionary.__init__ as a staged computation, recording which
derived structures are built before a failure: sky samples are built
first (the Halton sampler succeeds for any sample count), the provider
lookup for the antenna coefficients raises on an unknown detector, an
empty detector list raises reading geocenter_delays[0], np.min raises on
the empty key array when the delay index is empty (zero samples, or a
single detector), and the dense-array population raises on an
out-of-bounds key.  On success all derived structures are built. -/
def skyDictInit (dets : List String) (fs : ℚ) (nsky : ℕ) (halton : ℕ → ℚ × ℚ)
    (geom : String → Option ((ℚ × ℚ) → (ℚ × ℚ) × ℚ)) :
    Except (String × List String) (List String) :=
  if dets.all fun det => (geom det).isSome then
    match dets with
    | [] => .error ("geocenter_delay_first_det",
        ["sky_samples", "fplus_fcross_0", "geocenter_delays"])
    | _ :: _ =>
      let dmap := delays2indsMap (initKeys dets fs nsky halton geom)
      if dmap = [] then
        .error ("min_max_delay",
          ["sky_samples", "fplus_fcross_0", "geocenter_delays", "delays",
           "delays2inds_map"])
      else
        if (mapKeys dmap).all fun k =>
            (npCellList (arrSizes (ewMin (mapKeys dmap)) (ewMax (mapKeys dmap))) k).isSome
        then
          .ok ["sky_samples", "fplus_fcross_0", "geocenter_delays", "delays",
            "delays2inds_map", "min_max_delay", "delays_bounds", "delays_prior",
            "ind_generators", "sky_prior"]
        else
          .error ("dense_array_population",
            ["sky_samples", "fplus_fcross_0", "geocenter_delays", "delays",
             "delays2inds_map", "min_max_delay", "delays_bounds", "delays_prior"])
  else .error ("fplus_fcross_0", ["sky_samples"])

end SkyDict

/-! ### Lemmas about the delay index (delays2inds_map) -/

namespace SkyDict

section AssocMapLemmas

variable {κ : Type} [DecidableEq κ]

theorem bucket_nil (k : κ) : bucket ([] : List (κ × List ℕ)) k = [] := rfl

theorem bucket_cons (e : κ × List ℕ) (rest : List (κ × List ℕ)) (k : κ) :
    bucket (e :: rest) k = if e.1 = k then e.2 else bucket rest k := by
  by_cases h : e.1 = k <;> simp [bucket, List.find?, h]

theorem bucket_addKey (m : List (κ × List ℕ)) (i : ℕ) (k0 k : κ) :
    bucket (addKey m i k0) k = if k0 = k then bucket m k ++ [i] else bucket m k := by
  induction m with
  | nil =>
    by_cases h : k0 = k <;> simp [addKey, bucket_cons, bucket_nil, h]
  | cons kv rest ih =>
    by_cases hh : kv.1 = k0
    · by_cases h : k0 = k <;>
        simp [addKey, if_pos hh, bucket_cons, hh, h]
    · simp only [addKey, if_neg hh]
      by_cases hk : kv.1 = k
      · have hk0 : ¬ k0 = k := fun e => hh (by rw [hk, e])
        simp [bucket_cons, hk, hk0]
      · simp [bucket_cons, hk, ih]

theorem bucket_delays2indsMapAux (i : ℕ) (ks : List κ) (m : List (κ × List ℕ)) (k : κ) :
    bucket (delays2indsMapAux i ks m) k = bucket m k ++ matchingIdx i ks k := by
  induction ks generalizing i m with
  | nil => simp [delays2indsMapAux, matchingIdx]
  | cons k0 t ih =>
    simp only [delays2indsMapAux, matchingIdx]
    rw [ih, bucket_addKey]
    by_cases h : k0 = k <;> simp [h]

theorem bucket_delays2indsMap (ks : List κ) (k : κ) :
    bucket (delays2indsMap ks) k = matchingIdx 0 ks k := by
  simp [delays2indsMap, bucket_delays2indsMapAux, bucket_nil]

theorem mem_matchingIdx (i0 : ℕ) (ks : List κ) (k : κ) (x : ℕ) :
    x ∈ matchingIdx i0 ks k ↔ ∃ j, ks.get? j = some k ∧ x = i0 + j := by
  induction ks generalizing i0 with
  | nil => simp [matchingIdx]
  | cons k0 t ih =>
    simp only [matchingIdx]
    by_cases h : k0 = k
    · rw [if_pos h]
      constructor
      · intro hx
        rcases List.mem_cons.1 hx with rfl | hx2
        · exact ⟨0, by simp [h], by omega⟩
        · obtain ⟨j, hj, hxe⟩ := (ih _).1 hx2
          exact ⟨j + 1, by simpa using hj, by omega⟩
      · rintro ⟨j, hj, hxe⟩
        rcases j with _ | j
        · exact List.mem_cons.2 (Or.inl (by omega))
        · exact List.mem_cons.2 (Or.inr ((ih _).2 ⟨j, by simpa using hj, by omega⟩))
    · rw [if_neg h]
      constructor
      · intro hx
        obtain ⟨j, hj, hxe⟩ := (ih _).1 hx
        exact ⟨j + 1, by simpa using hj, by omega⟩
      · rintro ⟨j, hj, hxe⟩
        rcases j with _ | j
        · simp only [List.get?_cons_zero, Option.some_inj] at hj
          exact absurd hj h
        · exact (ih _).2 ⟨j, by simpa using hj, by omega⟩

theorem mem_bucket_iff (ks : List κ) (k : κ) (i : ℕ) :
    i ∈ bucket (delays2indsMap ks) k ↔ ks.get? i = some k := by
  rw [bucket_delays2indsMap, mem_matchingIdx]
  constructor
  · rintro ⟨j, hj, rfl⟩; simpa using hj
  · intro h; exact ⟨i, h, by omega⟩

theorem mapKeys_addKey (m : List (κ × List ℕ)) (i : ℕ) (k0 : κ) :
    mapKeys (addKey m i k0) =
      if k0 ∈ mapKeys m then mapKeys m else mapKeys m ++ [k0] := by
  induction m with
  | nil => simp [addKey, mapKeys]
  | cons kv rest ih =>
    by_cases hh : kv.1 = k0
    · have hmem : k0 ∈ mapKeys (kv :: rest) := by
        simp only [mapKeys, List.map_cons, List.mem_cons]
        exact Or.inl hh.symm
      simp only [addKey, if_pos hh, mapKeys, List.map_cons]
      rw [if_pos (List.mem_cons.2 (Or.inl hh.symm))]
    · simp only [addKey, if_neg hh, mapKeys, List.map_cons] at ih ⊢
      by_cases hm : k0 ∈ List.map Prod.fst rest
      · rw [if_pos hm] at ih
        rw [ih, if_pos (List.mem_cons.2 (Or.inr hm))]
      · rw [if_neg hm] at ih
        have : k0 ∉ kv.1 :: List.map Prod.fst rest := by
          intro hc
          rcases List.mem_cons.1 hc with hc | hc
          · exact hh hc.symm
          · exact hm hc
        rw [ih, if_neg this]
        simp

theorem mem_mapKeys_delays2indsMapAux (i : ℕ) (ks : List κ) (m : List (κ × List ℕ)) (k : κ) :
    k ∈ mapKeys (delays2indsMapAux i ks m) ↔ k ∈ mapKeys m ∨ k ∈ ks := by
  induction ks generalizing i m with
  | nil => simp [delays2indsMapAux]
  | cons k0 t ih =>
    simp only [delays2indsMapAux]
    rw [ih, mapKeys_addKey]
    by_cases hm : k0 ∈ mapKeys m
    · rw [if_pos hm]
      simp only [List.mem_cons]
      constructor
      · rintro (h | h)
        exacts [Or.inl h, Or.inr (Or.inr h)]
      · rintro (h | rfl | h)
        exacts [Or.inl h, Or.inl hm, Or.inr h]
    · rw [if_neg hm]
      simp only [List.mem_append, List.mem_cons, List.not_mem_nil, or_false]
      tauto

theorem mem_mapKeys_delays2indsMap (ks : List κ) (k : κ) :
    k ∈ mapKeys (delays2indsMap ks) ↔ k ∈ ks := by
  rw [delays2indsMap, mem_mapKeys_delays2indsMapAux]
  have : k ∉ mapKeys ([] : List (κ × List ℕ)) := by simp [mapKeys]
  tauto

theorem nodup_mapKeys_delays2indsMapAux (i : ℕ) (ks : List κ) (m : List (κ × List ℕ))
    (hm : (mapKeys m).Nodup) : (mapKeys (delays2indsMapAux i ks m)).Nodup := by
  induction ks generalizing i m with
  | nil => simpa [delays2indsMapAux]
  | cons k0 t ih =>
    refine ih _ _ ?_
    rw [mapKeys_addKey]
    by_cases h : k0 ∈ mapKeys m
    · simpa [h]
    · rw [if_neg h]
      refine List.nodup_append.2 ⟨hm, List.nodup_singleton _, ?_⟩
      intro a ha hab
      simp only [List.mem_singleton] at hab
      subst hab
      exact h ha

theorem nodup_mapKeys_delays2indsMap (ks : List κ) :
    (mapKeys (delays2indsMap ks)).Nodup :=
  nodup_mapKeys_delays2indsMapAux 0 ks [] (by simp [mapKeys])

theorem bucket_of_mem_nodup (m : List (κ × List ℕ)) (kv : κ × List ℕ)
    (hnd : (mapKeys m).Nodup) (hmem : kv ∈ m) : bucket m kv.1 = kv.2 := by
  induction m with
  | nil => simp at hmem
  | cons e rest ih =>
    simp only [mapKeys, List.map_cons, List.nodup_cons] at hnd
    rcases List.mem_cons.1 hmem with rfl | hmem2
    · rw [bucket_cons, if_pos rfl]
    · have hne : e.1 ≠ kv.1 := by
        intro h
        exact hnd.1 (h ▸ List.mem_map_of_mem Prod.fst hmem2)
      rw [bucket_cons, if_neg hne]
      exact ih hnd.2 hmem2

theorem mem_of_mem_mapKeys (m : List (κ × List ℕ)) (k : κ)
    (h : k ∈ mapKeys m) : (k, bucket m k) ∈ m := by
  induction m with
  | nil => simp [mapKeys] at h
  | cons e rest ih =>
    obtain ⟨ek, ev⟩ := e
    by_cases he : ek = k
    · subst he
      rw [bucket_cons, if_pos rfl]
      exact List.mem_cons.2 (Or.inl rfl)
    · rw [bucket_cons, if_neg he]
      refine List.mem_cons.2 (Or.inr (ih ?_))
      simp only [mapKeys, List.map_cons, List.mem_cons] at h
      rcases h with h | h
      · exact absurd h.symm he
      · exact h

theorem bucket_ne_nil_of_mem (ks : List κ) (k : κ) (h : k ∈ ks) :
    bucket (delays2indsMap ks) k ≠ [] := by
  obtain ⟨j, hj⟩ := List.get_of_mem h
  have hmem : j.1 ∈ bucket (delays2indsMap ks) k := by
    rw [mem_bucket_iff, List.get?_eq_get j.2, hj]
  intro hnil
  rw [hnil] at hmem
  simp at hmem

theorem sum_lengths_addKey (m : List (κ × List ℕ)) (i : ℕ) (k0 : κ) :
    ((addKey m i k0).map fun kv => kv.2.length).sum
      = ((m.map fun kv => kv.2.length).sum) + 1 := by
  induction m with
  | nil => simp [addKey]
  | cons kv rest ih =>
    by_cases hh : kv.1 = k0
    · simp only [addKey, if_pos hh, List.map_cons, List.sum_cons, List.length_append,
        List.length_singleton]
      omega
    · simp only [addKey, if_neg hh, List.map_cons, List.sum_cons, ih]
      omega

theorem sum_lengths_delays2indsMapAux (i : ℕ) (ks : List κ) (m : List (κ × List ℕ)) :
    ((delays2indsMapAux i ks m).map fun kv => kv.2.length).sum
      = ((m.map fun kv => kv.2.length).sum) + ks.length := by
  induction ks generalizing i m with
  | nil => simp [delays2indsMapAux]
  | cons k0 t ih =>
    simp only [delays2indsMapAux, ih, sum_lengths_addKey, List.length_cons]
    omega

theorem sum_lengths_delays2indsMap (ks : List κ) :
    ((delays2indsMap ks).map fun kv => kv.2.length).sum = ks.length := by
  simpa [delays2indsMap] using sum_lengths_delays2indsMapAux 0 ks []

theorem entry_eq_of_nodup (m : List (κ × List ℕ)) (kv kv2 : κ × List ℕ)
    (hnd : (mapKeys m).Nodup) (h1 : kv ∈ m) (h2 : kv2 ∈ m) (hk : kv.1 = kv2.1) :
    kv = kv2 := by
  have e1 := bucket_of_mem_nodup m kv hnd h1
  have e2 := bucket_of_mem_nodup m kv2 hnd h2
  rw [hk] at e1
  exact Prod.ext hk (by rw [← e1, ← e2])

end AssocMapLemmas

end SkyDict

/-! ### Lemmas about elementwise bounds and numpy indexing -/

namespace SkyDict

theorem pleB_refl (l : List ℤ) : pleB l l = true := by
  induction l with
  | nil => rfl
  | cons a t ih => simp [pleB, ih]

theorem pleB_length (a b : List ℤ) (h : pleB a b = true) : a.length = b.length := by
  induction a generalizing b with
  | nil => cases b with
    | nil => rfl
    | cons x u => simp [pleB] at h
  | cons x t ih =>
    cases b with
    | nil => simp [pleB] at h
    | cons y u =>
      simp only [pleB, Bool.and_eq_true] at h
      simp [ih u h.2]

theorem pleB_trans (a b c : List ℤ) (h1 : pleB a b = true) (h2 : pleB b c = true) :
    pleB a c = true := by
  induction a generalizing b c with
  | nil =>
    cases b with
    | nil => cases c with
      | nil => rfl
      | cons z w => simp [pleB] at h2
    | cons y u => simp [pleB] at h1
  | cons x t ih =>
    cases b with
    | nil => simp [pleB] at h1
    | cons y u =>
      cases c with
      | nil => simp [pleB] at h2
      | cons z w =>
        simp only [pleB, Bool.and_eq_true, decide_eq_true_eq] at h1 h2 ⊢
        exact ⟨le_trans h1.1 h2.1, ih u w h1.2 h2.2⟩

theorem pleB_zipWith_min_left (a b : List ℤ) (h : a.length = b.length) :
    pleB (List.zipWith min a b) a = true := by
  induction a generalizing b with
  | nil => simp [pleB]
  | cons x t ih =>
    cases b with
    | nil => simp at h
    | cons y u =>
      simp only [List.zipWith_cons_cons, pleB, Bool.and_eq_true, decide_eq_true_eq]
      exact ⟨min_le_left x y, ih u (by simpa using h)⟩

theorem pleB_zipWith_min_right (a b : List ℤ) (h : a.length = b.length) :
    pleB (List.zipWith min a b) b = true := by
  induction a generalizing b with
  | nil =>
    cases b with
    | nil => simp [pleB]
    | cons y u => simp at h
  | cons x t ih =>
    cases b with
    | nil => simp at h
    | cons y u =>
      simp only [List.zipWith_cons_cons, pleB, Bool.and_eq_true, decide_eq_true_eq]
      exact ⟨min_le_right x y, ih u (by simpa using h)⟩

theorem pleB_zipWith_max_left (a b : List ℤ) (h : a.length = b.length) :
    pleB a (List.zipWith max a b) = true := by
  induction a generalizing b with
  | nil => simp [pleB]
  | cons x t ih =>
    cases b with
    | nil => simp at h
    | cons y u =>
      simp only [List.zipWith_cons_cons, pleB, Bool.and_eq_true, decide_eq_true_eq]
      exact ⟨le_max_left x y, ih u (by simpa using h)⟩

theorem pleB_zipWith_max_right (a b : List ℤ) (h : a.length = b.length) :
    pleB b (List.zipWith max a b) = true := by
  induction a generalizing b with
  | nil =>
    cases b with
    | nil => simp [pleB]
    | cons y u => simp at h
  | cons x t ih =>
    cases b with
    | nil => simp at h
    | cons y u =>
      simp only [List.zipWith_cons_cons, pleB, Bool.and_eq_true, decide_eq_true_eq]
      exact ⟨le_max_right x y, ih u (by simpa using h)⟩

theorem inRangeB_eq_ple (mn mx q : List ℤ) :
    inRangeB mn mx q = (pleB mn q && pleB q mx) := by
  induction mn generalizing mx q with
  | nil =>
    cases mx <;> cases q <;> simp [inRangeB, pleB]
  | cons a mt ih =>
    cases mx with
    | nil => cases q <;> simp [inRangeB, pleB]
    | cons b xt =>
      cases q with
      | nil => simp [inRangeB, pleB]
      | cons c qt =>
        simp only [inRangeB, pleB, ih]
        by_cases h1 : a ≤ c <;> by_cases h2 : c ≤ b <;>
          simp [h1, h2, Bool.and_assoc, Bool.and_comm, Bool.and_left_comm]

theorem foldl_zipWith_min_length (t : List (List ℤ)) (acc : List ℤ)
    (hU : ∀ x ∈ t, x.length = acc.length) :
    (t.foldl (List.zipWith min) acc).length = acc.length := by
  induction t generalizing acc with
  | nil => rfl
  | cons k u ih =>
    have hk : k.length = acc.length := hU k (by simp)
    have hlen : (List.zipWith min acc k).length = acc.length := by
      simp [List.length_zipWith, hk]
    rw [List.foldl_cons, ih (List.zipWith min acc k) (fun x hx => by
      rw [hlen]; exact hU x (by simp [hx])), hlen]

theorem foldl_zipWith_max_length (t : List (List ℤ)) (acc : List ℤ)
    (hU : ∀ x ∈ t, x.length = acc.length) :
    (t.foldl (List.zipWith max) acc).length = acc.length := by
  induction t generalizing acc with
  | nil => rfl
  | cons k u ih =>
    have hk : k.length = acc.length := hU k (by simp)
    have hlen : (List.zipWith max acc k).length = acc.length := by
      simp [List.length_zipWith, hk]
    rw [List.foldl_cons, ih (List.zipWith max acc k) (fun x hx => by
      rw [hlen]; exact hU x (by simp [hx])), hlen]

theorem foldl_zipWith_min_ple_acc (t : List (List ℤ)) (acc : List ℤ)
    (hU : ∀ x ∈ t, x.length = acc.length) :
    pleB (t.foldl (List.zipWith min) acc) acc = true := by
  induction t generalizing acc with
  | nil => exact pleB_refl acc
  | cons k u ih =>
    have hk : k.length = acc.length := hU k (by simp)
    have hlen : (List.zipWith min acc k).length = acc.length := by
      simp [List.length_zipWith, hk]
    rw [List.foldl_cons]
    have h1 : pleB (u.foldl (List.zipWith min) (List.zipWith min acc k))
        (List.zipWith min acc k) = true :=
      ih (List.zipWith min acc k) (fun x hx => by rw [hlen]; exact hU x (by simp [hx]))
    exact pleB_trans _ _ _ h1 (pleB_zipWith_min_left acc k hk.symm)

theorem foldl_zipWith_max_acc_ple (t : List (List ℤ)) (acc : List ℤ)
    (hU : ∀ x ∈ t, x.length = acc.length) :
    pleB acc (t.foldl (List.zipWith max) acc) = true := by
  induction t generalizing acc with
  | nil => exact pleB_refl acc
  | cons k u ih =>
    have hk : k.length = acc.length := hU k (by simp)
    have hlen : (List.zipWith max acc k).length = acc.length := by
      simp [List.length_zipWith, hk]
    rw [List.foldl_cons]
    have h1 : pleB (List.zipWith max acc k)
        (u.foldl (List.zipWith max) (List.zipWith max acc k)) = true :=
      ih (List.zipWith max acc k) (fun x hx => by rw [hlen]; exact hU x (by simp [hx]))
    exact pleB_trans _ _ _ (pleB_zipWith_max_left acc k hk.symm) h1

theorem foldl_zipWith_min_ple_mem (t : List (List ℤ)) (acc : List ℤ) (x : List ℤ)
    (hU : ∀ y ∈ t, y.length = acc.length) (hx : x ∈ t) :
    pleB (t.foldl (List.zipWith min) acc) x = true := by
  induction t generalizing acc with
  | nil => simp at hx
  | cons k u ih =>
    have hk : k.length = acc.length := hU k (by simp)
    have hlen : (List.zipWith min acc k).length = acc.length := by
      simp [List.length_zipWith, hk]
    have hU2 : ∀ y ∈ u, y.length = (List.zipWith min acc k).length := fun y hy => by
      rw [hlen]; exact hU y (by simp [hy])
    rw [List.foldl_cons]
    rcases List.mem_cons.1 hx with rfl | hx2
    · exact pleB_trans _ _ _ (foldl_zipWith_min_ple_acc u _ hU2)
        (pleB_zipWith_min_right acc x hk.symm)
    · exact ih (List.zipWith min acc k) hU2 hx2

theorem foldl_zipWith_max_mem_ple (t : List (List ℤ)) (acc : List ℤ) (x : List ℤ)
    (hU : ∀ y ∈ t, y.length = acc.length) (hx : x ∈ t) :
    pleB x (t.foldl (List.zipWith max) acc) = true := by
  induction t generalizing acc with
  | nil => simp at hx
  | cons k u ih =>
    have hk : k.length = acc.length := hU k (by simp)
    have hlen : (List.zipWith max acc k).length = acc.length := by
      simp [List.length_zipWith, hk]
    have hU2 : ∀ y ∈ u, y.length = (List.zipWith max acc k).length := fun y hy => by
      rw [hlen]; exact hU y (by simp [hy])
    rw [List.foldl_cons]
    rcases List.mem_cons.1 hx with rfl | hx2
    · exact pleB_trans _ _ _ (pleB_zipWith_max_right acc x hk.symm)
        (foldl_zipWith_max_acc_ple u _ hU2)
    · exact ih (List.zipWith max acc k) hU2 hx2

theorem inRangeB_ewMin_ewMax_of_mem (ks : List (List ℤ)) (L : ℕ)
    (hU : ∀ x ∈ ks, x.length = L) (k : List ℤ) (hk : k ∈ ks) :
    inRangeB (ewMin ks) (ewMax ks) k = true := by
  cases ks with
  | nil => simp at hk
  | cons k0 t =>
    have hU0 : ∀ x ∈ t, x.length = k0.length := fun x hx => by
      rw [hU x (by simp [hx]), hU k0 (by simp)]
    rw [inRangeB_eq_ple]
    simp only [ewMin, ewMax, Bool.and_eq_true]
    rcases List.mem_cons.1 hk with rfl | hk2
    · exact ⟨foldl_zipWith_min_ple_acc t k hU0, foldl_zipWith_max_acc_ple t k hU0⟩
    · exact ⟨foldl_zipWith_min_ple_mem t k0 k hU0 hk2,
        foldl_zipWith_max_mem_ple t k0 k hU0 hk2⟩

theorem npIndex_bounds_val (a b k : ℤ) (ha : a ≤ 0) (hb : 0 ≤ b)
    (h1 : a ≤ k) (h2 : k ≤ b) :
    npIndex ((b - a + 1).toNat) k
      = some ((if 0 ≤ k then k else k + (b - a + 1)).toNat) := by
  simp only [npIndex]
  by_cases hk : 0 ≤ k
  · rw [if_pos ⟨hk, by omega⟩, if_pos hk]
  · rw [if_neg (by omega), if_pos (by omega), if_neg hk,
      Int.toNat_of_nonneg (by omega : (0:ℤ) ≤ b - a + 1)]

theorem npIndex_isSome_bounds (a b k : ℤ) (ha : a ≤ 0) (hb : 0 ≤ b)
    (h1 : a ≤ k) (h2 : k ≤ b) : (npIndex ((b - a + 1).toNat) k).isSome = true := by
  rw [npIndex_bounds_val a b k ha hb h1 h2]
  rfl

theorem npIndex_inj_bounds (a b k k2 : ℤ) (ha : a ≤ 0) (hb : 0 ≤ b)
    (h1 : a ≤ k) (h2 : k ≤ b) (h3 : a ≤ k2) (h4 : k2 ≤ b)
    (heq : npIndex ((b - a + 1).toNat) k = npIndex ((b - a + 1).toNat) k2) : k = k2 := by
  rw [npIndex_bounds_val a b k ha hb h1 h2, npIndex_bounds_val a b k2 ha hb h3 h4] at heq
  simp only [Option.some_inj] at heq
  split at heq <;> split at heq <;> omega

end SkyDict

/-! ### Lemmas about multi-dimensional cells and dense array writes -/

namespace SkyDict

theorem arrSizes_cons (a b : ℤ) (mt xt : List ℤ) :
    arrSizes (a :: mt) (b :: xt) = (b - a + 1).toNat :: arrSizes mt xt := rfl

theorem npCellList_isSome (mn mx k : List ℤ) (hok : originOK mn mx = true)
    (hin : inRangeB mn mx k = true) :
    (npCellList (arrSizes mn mx) k).isSome = true := by
  induction mn generalizing mx k with
  | nil =>
    cases mx with
    | nil =>
      cases k with
      | nil => rfl
      | cons c qt => simp [inRangeB] at hin
    | cons b xt => simp [originOK] at hok
  | cons a mt ih =>
    cases mx with
    | nil => simp [originOK] at hok
    | cons b xt =>
      cases k with
      | nil => simp [inRangeB] at hin
      | cons c qt =>
        simp only [originOK, Bool.and_eq_true, decide_eq_true_eq] at hok
        simp only [inRangeB, Bool.and_eq_true, decide_eq_true_eq] at hin
        simp only [arrSizes_cons, npCellList]
        have hs := npIndex_isSome_bounds a b c hok.1.1 hok.1.2 hin.1.1 hin.1.2
        obtain ⟨i, hi⟩ := Option.isSome_iff_exists.1 hs
        have hc := ih xt qt hok.2 hin.2
        obtain ⟨cc, hcc⟩ := Option.isSome_iff_exists.1 hc
        rw [hi]
        rw [show npCellList (List.zipWith (fun a b => (b - a + 1).toNat) mt xt) qt
          = some cc from hcc]
        rfl

theorem npCellList_inj (mn mx k k2 : List ℤ) (hok : originOK mn mx = true)
    (hin : inRangeB mn mx k = true) (hin2 : inRangeB mn mx k2 = true)
    (heq : npCellList (arrSizes mn mx) k = npCellList (arrSizes mn mx) k2) :
    k = k2 := by
  induction mn generalizing mx k k2 with
  | nil =>
    cases mx with
    | nil =>
      cases k with
      | nil =>
        cases k2 with
        | nil => rfl
        | cons c2 qt2 => simp [inRangeB] at hin2
      | cons c qt => simp [inRangeB] at hin
    | cons b xt => simp [originOK] at hok
  | cons a mt ih =>
    cases mx with
    | nil => simp [originOK] at hok
    | cons b xt =>
      cases k with
      | nil => simp [inRangeB] at hin
      | cons c qt =>
        cases k2 with
        | nil => simp [inRangeB] at hin2
        | cons c2 qt2 =>
          simp only [originOK, Bool.and_eq_true, decide_eq_true_eq] at hok
          simp only [inRangeB, Bool.and_eq_true, decide_eq_true_eq] at hin hin2
          simp only [arrSizes_cons, npCellList] at heq
          obtain ⟨i, hi⟩ := Option.isSome_iff_exists.1
            (npIndex_isSome_bounds a b c hok.1.1 hok.1.2 hin.1.1 hin.1.2)
          obtain ⟨i2, hi2⟩ := Option.isSome_iff_exists.1
            (npIndex_isSome_bounds a b c2 hok.1.1 hok.1.2 hin2.1.1 hin2.1.2)
          obtain ⟨cc, hcc⟩ := Option.isSome_iff_exists.1
            (npCellList_isSome mt xt qt hok.2 hin.2)
          obtain ⟨cc2, hcc2⟩ := Option.isSome_iff_exists.1
            (npCellList_isSome mt xt qt2 hok.2 hin2.2)
          rw [hi, hi2] at heq
          rw [show npCellList (List.zipWith (fun a b => (b - a + 1).toNat) mt xt) qt
            = some cc from hcc] at heq
          rw [show npCellList (List.zipWith (fun a b => (b - a + 1).toNat) mt xt) qt2
            = some cc2 from hcc2] at heq
          simp only [Option.some_inj, List.cons.injEq] at heq
          have hc : c = c2 := by
            refine npIndex_inj_bounds a b c c2 hok.1.1 hok.1.2 hin.1.1 hin.1.2
              hin2.1.1 hin2.1.2 ?_
            rw [hi, hi2, heq.1]
          have hq : qt = qt2 := ih xt qt qt2 hok.2 hin.2 hin2.2 (by rw [hcc, hcc2, heq.2])
          rw [hc, hq]

theorem denseWrite_cons {β : Type} (sz : List ℕ) (f : List ℤ × List ℕ → β)
    (base : List ℕ → β) (e : List ℤ × List ℕ) (m : List (List ℤ × List ℕ)) :
    denseWrite sz f base (e :: m)
      = denseWrite sz f
          (match npCellList sz e.1 with
           | some c => Function.update base c (f e)
           | none => base) m := by
  simp [denseWrite]

theorem denseWrite_rel {β γ : Type} (R : β → γ → Prop) (sz : List ℕ)
    (f1 : List ℤ × List ℕ → β) (f2 : List ℤ × List ℕ → γ)
    (b1 : List ℕ → β) (b2 : List ℕ → γ) (m : List (List ℤ × List ℕ)) (c : List ℕ)
    (hb : R (b1 c) (b2 c)) (hf : ∀ e ∈ m, R (f1 e) (f2 e)) :
    R (denseWrite sz f1 b1 m c) (denseWrite sz f2 b2 m c) := by
  induction m generalizing b1 b2 with
  | nil => exact hb
  | cons e t ih =>
    rw [denseWrite_cons, denseWrite_cons]
    rcases hcell : npCellList sz e.1 with _ | c0
    · exact ih b1 b2 hb (fun x hx => hf x (by simp [hx]))
    · refine ih _ _ ?_ (fun x hx => hf x (by simp [hx]))
      by_cases hc : c = c0
      · subst hc
        simp only [Function.update_same]
        exact hf e (by simp)
      · simp only [Function.update_noteq hc]
        exact hb

theorem denseWrite_prop {β : Type} (P : β → Prop) (sz : List ℕ)
    (f : List ℤ × List ℕ → β) (base : List ℕ → β) (m : List (List ℤ × List ℕ)) (c : List ℕ)
    (hb : P (base c)) (hf : ∀ e ∈ m, P (f e)) :
    P (denseWrite sz f base m c) :=
  denseWrite_rel (fun x _ => P x) sz f f base base m c hb hf

theorem denseWrite_const_at {β : Type} (sz : List ℕ) (f : List ℤ × List ℕ → β)
    (base : List ℕ → β) (m : List (List ℤ × List ℕ)) (c : List ℕ) (v : β)
    (hf : ∀ e ∈ m, npCellList sz e.1 = some c → f e = v) (hb : base c = v) :
    denseWrite sz f base m c = v := by
  induction m generalizing base with
  | nil => exact hb
  | cons e t ih =>
    rw [denseWrite_cons]
    rcases hcell : npCellList sz e.1 with _ | c0
    · exact ih base (fun x hx => hf x (by simp [hx])) hb
    · refine ih _ (fun x hx => hf x (by simp [hx])) ?_
      by_cases hc : c = c0
      · subst hc
        simp only [Function.update_same]
        exact hf e (by simp) hcell
      · simpa only [Function.update_noteq hc] using hb

theorem denseWrite_mem_at {β : Type} (sz : List ℕ) (f : List ℤ × List ℕ → β)
    (base : List ℕ → β) (m : List (List ℤ × List ℕ)) (c : List ℕ) (e : List ℤ × List ℕ)
    (hmem : e ∈ m) (hcell : npCellList sz e.1 = some c)
    (huniq : ∀ e2 ∈ m, npCellList sz e2.1 = some c → f e2 = f e) :
    denseWrite sz f base m c = f e := by
  induction m generalizing base with
  | nil => simp at hmem
  | cons e0 t ih =>
    rw [denseWrite_cons]
    rcases hcell0 : npCellList sz e0.1 with _ | c0
    · have he0 : e ≠ e0 := fun h => by rw [h, hcell0] at hcell; exact Option.noConfusion hcell
      have hmem2 : e ∈ t := by
        rcases List.mem_cons.1 hmem with h | h
        · exact absurd h he0
        · exact h
      exact ih base hmem2 (fun x hx => huniq x (by simp [hx]))
    · by_cases hc : c0 = c
      · subst hc
        refine denseWrite_const_at sz f _ t c0 (f e)
          (fun x hx => huniq x (by simp [hx])) ?_
        simp only [Function.update_same]
        exact huniq e0 (by simp) hcell0
      · have hmem2 : e ∈ t := by
          rcases List.mem_cons.1 hmem with h | h
          · rw [h, hcell0] at hcell
            simp only [Option.some_inj] at hcell
            exact absurd hcell hc
          · exact h
        exact ih _ hmem2 (fun x hx => huniq x (by simp [hx]))

end SkyDict

/-! ### Program-level lemmas about the dense arrays -/

namespace SkyDict

theorem skyDictSizes_eq (keys : List (List ℤ)) :
    skyDictSizes keys = arrSizes (skyDictMinDelay keys) (skyDictMaxDelay keys) := rfl

theorem mapKeys_uniform (keys : List (List ℤ)) (d : ℕ)
    (hU : ∀ k ∈ keys, k.length = d) :
    ∀ k ∈ mapKeys (delays2indsMap keys), k.length = d := fun k hk =>
  hU k ((mem_mapKeys_delays2indsMap keys k).1 hk)

theorem inRangeB_of_mem_keys (keys : List (List ℤ)) (d : ℕ)
    (hU : ∀ k ∈ keys, k.length = d) (k : List ℤ) (hk : k ∈ keys) :
    inRangeB (skyDictMinDelay keys) (skyDictMaxDelay keys) k = true :=
  inRangeB_ewMin_ewMax_of_mem (mapKeys (delays2indsMap keys)) d
    (mapKeys_uniform keys d hU) k ((mem_mapKeys_delays2indsMap keys k).2 hk)

theorem skyPriorArr_nonneg (fs : ℚ) (d : ℕ) (keys : List (List ℤ)) (c : List ℕ)
    (hfs : 0 ≤ fs) : 0 ≤ skyPriorArr fs d keys c := by
  refine denseWrite_prop (fun x => 0 ≤ x) _ _ _ _ _ le_rfl (fun e _ => ?_)
  have h1 : (0:ℚ) ≤ fs ^ d := pow_nonneg hfs d
  have h2 : (0:ℚ) ≤ (e.2.length : ℚ) := Nat.cast_nonneg _
  have h3 : (0:ℚ) ≤ (keys.length : ℚ) := Nat.cast_nonneg _
  exact div_nonneg (mul_nonneg h1 h2) h3

theorem genArr_ne_nil_of_prior_pos (fs : ℚ) (d : ℕ) (keys : List (List ℤ)) (c : List ℕ)
    (hp : 0 < skyPriorArr fs d keys c) : genArr keys c ≠ [] := by
  revert hp
  refine denseWrite_rel (fun (x : ℚ) (y : List ℕ) => 0 < x → y ≠ []) _ _ _ _ _
    (delays2indsMap keys) c (by simp) (fun e _ => ?_)
  intro hpos
  intro hnil
  rw [hnil] at hpos
  simp at hpos

theorem skyPriorArr_at_mem (fs : ℚ) (d : ℕ) (keys : List (List ℤ)) (k : List ℤ)
    (c : List ℕ) (hU : ∀ x ∈ keys, x.length = d)
    (hb : originOK (skyDictMinDelay keys) (skyDictMaxDelay keys) = true)
    (hk : k ∈ keys) (hc : npCellList (skyDictSizes keys) k = some c) :
    skyPriorArr fs d keys c
      = fs ^ d * ((bucket (delays2indsMap keys) k).length : ℚ) / (keys.length : ℚ) := by
  have hmk : k ∈ mapKeys (delays2indsMap keys) :=
    (mem_mapKeys_delays2indsMap keys k).2 hk
  have hmem : (k, bucket (delays2indsMap keys) k) ∈ delays2indsMap keys :=
    mem_of_mem_mapKeys _ k hmk
  refine denseWrite_mem_at _ _ _ _ c (k, bucket (delays2indsMap keys) k) hmem hc
    (fun e2 he2 hc2 => ?_)
  have hk2 : e2.1 ∈ keys :=
    (mem_mapKeys_delays2indsMap keys e2.1).1 (List.mem_map_of_mem Prod.fst he2)
  have heq : e2.1 = k := by
    refine npCellList_inj (skyDictMinDelay keys) (skyDictMaxDelay keys) e2.1 k hb
      (inRangeB_of_mem_keys keys d hU e2.1 hk2)
      (inRangeB_of_mem_keys keys d hU k hk) ?_
    rw [← skyDictSizes_eq, hc2, hc]
  have : e2 = (k, bucket (delays2indsMap keys) k) :=
    entry_eq_of_nodup _ e2 _ (nodup_mapKeys_delays2indsMap keys) he2 hmem heq
  rw [this]

theorem genArr_at_mem (keys : List (List ℤ)) (d : ℕ) (k : List ℤ) (c : List ℕ)
    (hU : ∀ x ∈ keys, x.length = d)
    (hb : originOK (skyDictMinDelay keys) (skyDictMaxDelay keys) = true)
    (hk : k ∈ keys) (hc : npCellList (skyDictSizes keys) k = some c) :
    genArr keys c = bucket (delays2indsMap keys) k := by
  have hmk : k ∈ mapKeys (delays2indsMap keys) :=
    (mem_mapKeys_delays2indsMap keys k).2 hk
  have hmem : (k, bucket (delays2indsMap keys) k) ∈ delays2indsMap keys :=
    mem_of_mem_mapKeys _ k hmk
  refine denseWrite_mem_at _ _ _ _ c (k, bucket (delays2indsMap keys) k) hmem hc
    (fun e2 he2 hc2 => ?_)
  have hk2 : e2.1 ∈ keys :=
    (mem_mapKeys_delays2indsMap keys e2.1).1 (List.mem_map_of_mem Prod.fst he2)
  have heq : e2.1 = k := by
    refine npCellList_inj (skyDictMinDelay keys) (skyDictMaxDelay keys) e2.1 k hb
      (inRangeB_of_mem_keys keys d hU e2.1 hk2)
      (inRangeB_of_mem_keys keys d hU k hk) ?_
    rw [← skyDictSizes_eq, hc2, hc]
  have : e2 = (k, bucket (delays2indsMap keys) k) :=
    entry_eq_of_nodup _ e2 _ (nodup_mapKeys_delays2indsMap keys) he2 hmem heq
  rw [this]

theorem skyPriorArr_zero_of_not_mem (fs : ℚ) (d : ℕ) (keys : List (List ℤ)) (k : List ℤ)
    (c : List ℕ) (hU : ∀ x ∈ keys, x.length = d)
    (hb : originOK (skyDictMinDelay keys) (skyDictMaxDelay keys) = true)
    (hin : inRangeB (skyDictMinDelay keys) (skyDictMaxDelay keys) k = true)
    (hk : k ∉ keys) (hc : npCellList (skyDictSizes keys) k = some c) :
    skyPriorArr fs d keys c = 0 := by
  refine denseWrite_const_at _ _ _ _ c 0 (fun e2 he2 hc2 => ?_) rfl
  exfalso
  have hk2 : e2.1 ∈ keys :=
    (mem_mapKeys_delays2indsMap keys e2.1).1 (List.mem_map_of_mem Prod.fst he2)
  have heq : e2.1 = k := by
    refine npCellList_inj (skyDictMinDelay keys) (skyDictMaxDelay keys) e2.1 k hb
      (inRangeB_of_mem_keys keys d hU e2.1 hk2) hin ?_
    rw [← skyDictSizes_eq, hc2, hc]
  exact hk (heq ▸ hk2)

end SkyDict

/-! ### The query path: mask, lengths and prior values -/

namespace SkyDict

theorem runQueries_spec (prior : List ℕ → ℚ) (gens : List ℕ → List ℕ)
    (mn mx : List ℤ) (sz : List ℕ) (hnn : ∀ c, 0 ≤ prior c) :
    ∀ (qs : List (List ℤ)) (st : List ℕ → ℕ),
      (runQueries prior gens mn mx sz qs st).1.mask.length = qs.length
      ∧ (∀ i, (runQueries prior gens mn mx sz qs st).1.mask.get? i = some true ↔
          ∃ q, qs.get? i = some q ∧ inRangeB mn mx q = true ∧
            ∃ c, npCellList sz q = some c ∧ prior c ≠ 0)
      ∧ (runQueries prior gens mn mx sz qs st).1.inds.length
          = (runQueries prior gens mn mx sz qs st).1.mask.count true
      ∧ (runQueries prior gens mn mx sz qs st).1.priors.length
          = (runQueries prior gens mn mx sz qs st).1.mask.count true
      ∧ (runQueries prior gens mn mx sz qs st).1.priors
          = (qs.filter fun q => inRangeB mn mx q &&
              decide (((npCellList sz q).map prior).getD 0 ≠ 0)).map
              (fun q => ((npCellList sz q).map prior).getD 0) := by
  intro qs
  induction qs with
  | nil =>
    intro st
    refine ⟨rfl, fun i => ?_, rfl, rfl, rfl⟩
    simp [runQueries]
  | cons q qs ih =>
    intro st
    by_cases hr : inRangeB mn mx q = true
    · rcases hcell : npCellList sz q with _ | c
      · have hrun : runQueries prior gens mn mx sz (q :: qs) st =
            (⟨(runQueries prior gens mn mx sz qs st).1.inds,
              (runQueries prior gens mn mx sz qs st).1.priors,
              false :: (runQueries prior gens mn mx sz qs st).1.mask⟩,
             (runQueries prior gens mn mx sz qs st).2) := by
          simp only [runQueries, hr, if_true, hcell]
        have hm : (runQueries prior gens mn mx sz (q :: qs) st).1.mask
            = false :: (runQueries prior gens mn mx sz qs st).1.mask := by rw [hrun]
        have hind : (runQueries prior gens mn mx sz (q :: qs) st).1.inds
            = (runQueries prior gens mn mx sz qs st).1.inds := by rw [hrun]
        have hpr : (runQueries prior gens mn mx sz (q :: qs) st).1.priors
            = (runQueries prior gens mn mx sz qs st).1.priors := by rw [hrun]
        obtain ⟨h1, h2, h3, h4, h5⟩ := ih st
        have hpred : (inRangeB mn mx q &&
            decide (((npCellList sz q).map prior).getD 0 ≠ 0)) = false := by
          rw [hcell]
          simp
        refine ⟨by rw [hm, List.length_cons, h1, List.length_cons], fun i => ?_,
          by rw [hind, hm, List.count_cons_of_ne (by decide : (true : Bool) ≠ false)]
             exact h3,
          by rw [hpr, hm, List.count_cons_of_ne (by decide : (true : Bool) ≠ false)]
             exact h4,
          by rw [hpr, List.filter_cons_of_neg (by simp [hcell])]
             exact h5⟩
        rw [hm]
        rcases i with _ | i
        · simp only [List.get?_cons_zero, Option.some_inj]
          constructor
          · intro h
            exact absurd h (by decide)
          · rintro ⟨q2, hq2, _, c, hcons, _⟩
            rw [← hq2, hcell] at hcons
            exact Option.noConfusion hcons
        · simpa using h2 i
      · by_cases hp : 0 < prior c
        · have hrun : runQueries prior gens mn mx sz (q :: qs) st =
              (⟨(gens c).get? (st c % (gens c).length) ::
                  (runQueries prior gens mn mx sz qs
                    (Function.update st c (st c + 1))).1.inds,
                prior c :: (runQueries prior gens mn mx sz qs
                    (Function.update st c (st c + 1))).1.priors,
                true :: (runQueries prior gens mn mx sz qs
                    (Function.update st c (st c + 1))).1.mask⟩,
               (runQueries prior gens mn mx sz qs
                  (Function.update st c (st c + 1))).2) := by
            simp only [runQueries, hr, if_true, hcell, if_pos hp]
          have hm : (runQueries prior gens mn mx sz (q :: qs) st).1.mask
              = true :: (runQueries prior gens mn mx sz qs
                  (Function.update st c (st c + 1))).1.mask := by rw [hrun]
          have hind : (runQueries prior gens mn mx sz (q :: qs) st).1.inds
              = (gens c).get? (st c % (gens c).length) ::
                  (runQueries prior gens mn mx sz qs
                    (Function.update st c (st c + 1))).1.inds := by rw [hrun]
          have hpr : (runQueries prior gens mn mx sz (q :: qs) st).1.priors
              = prior c :: (runQueries prior gens mn mx sz qs
                  (Function.update st c (st c + 1))).1.priors := by rw [hrun]
          obtain ⟨h1, h2, h3, h4, h5⟩ := ih (Function.update st c (st c + 1))
          have hpred : (inRangeB mn mx q &&
              decide (((npCellList sz q).map prior).getD 0 ≠ 0)) = true := by
            rw [hcell]
            simp [hr, ne_of_gt hp]
          refine ⟨by rw [hm, List.length_cons, h1, List.length_cons], fun i => ?_,
            by rw [hind, hm, List.length_cons, List.count_cons_self, h3],
            by rw [hpr, hm, List.length_cons, List.count_cons_self, h4], ?_⟩
          · rw [hm]
            rcases i with _ | i
            · simp only [List.get?_cons_zero, Option.some_inj]
              constructor
              · intro _
                exact ⟨q, rfl, hr, c, hcell, ne_of_gt hp⟩
              · intro _
                trivial
            · simpa using h2 i
          · rw [hpr, List.filter_cons_of_pos (by simp [hr, hcell, ne_of_gt hp]),
              List.map_cons, ← h5, hcell]
            simp
        · have hpz : prior c = 0 := le_antisymm (not_lt.1 hp) (hnn c)
          have hrun : runQueries prior gens mn mx sz (q :: qs) st =
              (⟨(runQueries prior gens mn mx sz qs st).1.inds,
                (runQueries prior gens mn mx sz qs st).1.priors,
                false :: (runQueries prior gens mn mx sz qs st).1.mask⟩,
               (runQueries prior gens mn mx sz qs st).2) := by
            simp only [runQueries, hr, if_true, hcell, if_neg hp]
          have hm : (runQueries prior gens mn mx sz (q :: qs) st).1.mask
              = false :: (runQueries prior gens mn mx sz qs st).1.mask := by rw [hrun]
          have hind : (runQueries prior gens mn mx sz (q :: qs) st).1.inds
              = (runQueries prior gens mn mx sz qs st).1.inds := by rw [hrun]
          have hpr : (runQueries prior gens mn mx sz (q :: qs) st).1.priors
              = (runQueries prior gens mn mx sz qs st).1.priors := by rw [hrun]
          obtain ⟨h1, h2, h3, h4, h5⟩ := ih st
          have hpred : (inRangeB mn mx q &&
              decide (((npCellList sz q).map prior).getD 0 ≠ 0)) = false := by
            rw [hcell]
            simp [hpz]
          refine ⟨by rw [hm, List.length_cons, h1, List.length_cons], fun i => ?_,
            by rw [hind, hm, List.count_cons_of_ne (by decide : (true : Bool) ≠ false)]
               exact h3,
            by rw [hpr, hm, List.count_cons_of_ne (by decide : (true : Bool) ≠ false)]
               exact h4,
            by rw [hpr, List.filter_cons_of_neg (by simp [hcell, hpz])]
               exact h5⟩
          rw [hm]
          rcases i with _ | i
          · simp only [List.get?_cons_zero, Option.some_inj]
            constructor
            · intro h
              exact absurd h (by decide)
            · rintro ⟨q2, hq2, _, c2, hcons, hne⟩
              rw [← hq2, hcell] at hcons
              simp only [Option.some_inj] at hcons
              exact (hne (hcons ▸ hpz)).elim
          · simpa using h2 i
    · have hrn : inRangeB mn mx q = false := by
        revert hr
        cases inRangeB mn mx q <;> simp
      have hrun : runQueries prior gens mn mx sz (q :: qs) st =
          (⟨(runQueries prior gens mn mx sz qs st).1.inds,
            (runQueries prior gens mn mx sz qs st).1.priors,
            false :: (runQueries prior gens mn mx sz qs st).1.mask⟩,
           (runQueries prior gens mn mx sz qs st).2) := by
        simp [runQueries, hrn]
      have hm : (runQueries prior gens mn mx sz (q :: qs) st).1.mask
          = false :: (runQueries prior gens mn mx sz qs st).1.mask := by rw [hrun]
      have hind : (runQueries prior gens mn mx sz (q :: qs) st).1.inds
          = (runQueries prior gens mn mx sz qs st).1.inds := by rw [hrun]
      have hpr : (runQueries prior gens mn mx sz (q :: qs) st).1.priors
          = (runQueries prior gens mn mx sz qs st).1.priors := by rw [hrun]
      obtain ⟨h1, h2, h3, h4, h5⟩ := ih st
      have hpred : (inRangeB mn mx q &&
          decide (((npCellList sz q).map prior).getD 0 ≠ 0)) = false := by
        rw [hrn]
        simp
      refine ⟨by rw [hm, List.length_cons, h1, List.length_cons], fun i => ?_,
        by rw [hind, hm, List.count_cons_of_ne (by decide : (true : Bool) ≠ false)]
           exact h3,
        by rw [hpr, hm, List.count_cons_of_ne (by decide : (true : Bool) ≠ false)]
           exact h4,
        by rw [hpr, List.filter_cons_of_neg (by simp [hrn])]
           exact h5⟩
      rw [hm]
      rcases i with _ | i
      · simp only [List.get?_cons_zero, Option.some_inj]
        constructor
        · intro h
          exact absurd h (by decide)
        · rintro ⟨q2, hq2, hq2r, _⟩
          rw [← hq2] at hq2r
          rw [hq2r] at hrn
          exact Bool.noConfusion hrn
      · simpa using h2 i

end SkyDict

/-! ### C1: the query contract of get_sky_inds_and_prior -/

namespace SkyDict

/-- C1: for every integer delays array, get_sky_inds_and_prior returns a
physical_mask of length n_queries that is true for a query exactly when
every component of its delay vector lies within the recorded elementwise
[min, max] delay range and the dense prior array value at that key is
nonzero; sky_inds and sky_prior both have length equal to the number of
true entries of physical_mask, and sky_prior lists, in query order, the
dense prior array values of the surviving queries. -/
theorem C1_query_contract (fs : ℚ) (d : ℕ) (keys queries : List (List ℤ))
    (hfs : 0 ≤ fs) :
    (getSkyIndsAndPrior fs d keys queries).mask.length = queries.length
    ∧ (∀ i, (getSkyIndsAndPrior fs d keys queries).mask.get? i = some true ↔
        ∃ q, queries.get? i = some q ∧
          inRangeB (skyDictMinDelay keys) (skyDictMaxDelay keys) q = true ∧
          ∃ c, npCellList (skyDictSizes keys) q = some c ∧ skyPriorArr fs d keys c ≠ 0)
    ∧ (getSkyIndsAndPrior fs d keys queries).inds.length
        = (getSkyIndsAndPrior fs d keys queries).mask.count true
    ∧ (getSkyIndsAndPrior fs d keys queries).priors.length
        = (getSkyIndsAndPrior fs d keys queries).mask.count true
    ∧ (getSkyIndsAndPrior fs d keys queries).priors
        = (queries.filter (surviveB fs d keys)).map (priorAt fs d keys) :=
  runQueries_spec (skyPriorArr fs d keys) (genArr keys) (skyDictMinDelay keys)
    (skyDictMaxDelay keys) (skyDictSizes keys)
    (fun c => skyPriorArr_nonneg fs d keys c hfs) queries (fun _ => 0)

/-- C1 witness: the contract applied to the concrete two-sample
configuration at f_sampling = 1, with the hypothesis discharged. -/
theorem C1_query_contract_witness :
    (getSkyIndsAndPrior 1 1 exKeys exQueries).mask.length = exQueries.length
    ∧ (∀ i, (getSkyIndsAndPrior 1 1 exKeys exQueries).mask.get? i = some true ↔
        ∃ q, exQueries.get? i = some q ∧
          inRangeB (skyDictMinDelay exKeys) (skyDictMaxDelay exKeys) q = true ∧
          ∃ c, npCellList (skyDictSizes exKeys) q = some c ∧ skyPriorArr 1 1 exKeys c ≠ 0)
    ∧ (getSkyIndsAndPrior 1 1 exKeys exQueries).inds.length
        = (getSkyIndsAndPrior 1 1 exKeys exQueries).mask.count true
    ∧ (getSkyIndsAndPrior 1 1 exKeys exQueries).priors.length
        = (getSkyIndsAndPrior 1 1 exKeys exQueries).mask.count true
    ∧ (getSkyIndsAndPrior 1 1 exKeys exQueries).priors
        = (exQueries.filter (surviveB 1 1 exKeys)).map (priorAt 1 1 exKeys) :=
  C1_query_contract 1 1 exKeys exQueries (by norm_num)

end SkyDict

/-! ### C2, C5, C8: dense prior values, coverage, normalization -/

namespace SkyDict

/-- C2: for every delay bin key produced by at least one sky sample, the
dense prior array entry at that key equals
f_sampling^(n_det-1) * bucket_size / nsky, and the entry is exactly zero
at every in-range key with no samples. -/
theorem C2_dense_prior_values (fs : ℚ) (d : ℕ) (keys : List (List ℤ)) (k : List ℤ)
    (hU : ∀ x ∈ keys, x.length = d)
    (hb : originOK (skyDictMinDelay keys) (skyDictMaxDelay keys) = true) :
    (k ∈ keys → ∃ c, npCellList (skyDictSizes keys) k = some c ∧
        skyPriorArr fs d keys c
          = fs ^ d * ((bucket (delays2indsMap keys) k).length : ℚ) / (keys.length : ℚ))
    ∧ (inRangeB (skyDictMinDelay keys) (skyDictMaxDelay keys) k = true → k ∉ keys →
        ∀ c, npCellList (skyDictSizes keys) k = some c → skyPriorArr fs d keys c = 0) := by
  constructor
  · intro hk
    have hin : inRangeB (skyDictMinDelay keys) (skyDictMaxDelay keys) k = true :=
      inRangeB_of_mem_keys keys d hU k hk
    have hs : (npCellList (skyDictSizes keys) k).isSome = true :=
      npCellList_isSome (skyDictMinDelay keys) (skyDictMaxDelay keys) k hb hin
    obtain ⟨c, hc⟩ := Option.isSome_iff_exists.1 hs
    exact ⟨c, hc, skyPriorArr_at_mem fs d keys k c hU hb hk hc⟩
  · intro hin hk c hc
    exact skyPriorArr_zero_of_not_mem fs d keys k c hU hb hin hk hc

/-- C2 witness: the populated key [-1] of the concrete configuration and
the empty in-range key [0], with all hypotheses discharged. -/
theorem C2_dense_prior_values_witness :
    (([-1] : List ℤ) ∈ exKeys → ∃ c, npCellList (skyDictSizes exKeys) [-1] = some c ∧
        skyPriorArr 1 1 exKeys c
          = 1 ^ 1 * ((bucket (delays2indsMap exKeys) [-1]).length : ℚ)
              / (exKeys.length : ℚ))
    ∧ (inRangeB (skyDictMinDelay exKeys) (skyDictMaxDelay exKeys) [-1] = true →
        ([-1] : List ℤ) ∉ exKeys →
        ∀ c, npCellList (skyDictSizes exKeys) [-1] = some c →
          skyPriorArr 1 1 exKeys c = 0) :=
  C2_dense_prior_values 1 1 exKeys [-1] (by decide) (by decide)

/-- C5: for every sample index i with key k, k is a key of the delay
index, the bucket of k contains i, and i belongs to no other bucket. -/
theorem C5_coverage (keys : List (List ℤ)) (i : ℕ) (k : List ℤ)
    (h : keys.get? i = some k) :
    k ∈ mapKeys (delays2indsMap keys)
    ∧ i ∈ bucket (delays2indsMap keys) k
    ∧ ∀ kv ∈ delays2indsMap keys, i ∈ kv.2 → kv.1 = k := by
  refine ⟨(mem_mapKeys_delays2indsMap keys k).2 (List.get?_mem h),
    (mem_bucket_iff keys k i).2 h, fun kv hkv hi => ?_⟩
  have hbk : bucket (delays2indsMap keys) kv.1 = kv.2 :=
    bucket_of_mem_nodup _ kv (nodup_mapKeys_delays2indsMap keys) hkv
  have : i ∈ bucket (delays2indsMap keys) kv.1 := hbk ▸ hi
  have h2 : keys.get? i = some kv.1 := (mem_bucket_iff keys kv.1 i).1 this
  rw [h] at h2
  exact (Option.some_inj.1 h2).symm

/-- C5 witness: sample 0 of the concrete configuration, hypothesis
discharged by evaluation. -/
theorem C5_coverage_witness :
    ([-1] : List ℤ) ∈ mapKeys (delays2indsMap exKeys)
    ∧ 0 ∈ bucket (delays2indsMap exKeys) [-1]
    ∧ ∀ kv ∈ delays2indsMap exKeys, 0 ∈ kv.2 → kv.1 = [-1] :=
  C5_coverage exKeys 0 [-1] (by decide)

theorem sum_lengths_div (m : List (List ℤ × List ℕ)) (n : ℚ) :
    (m.map fun kv => (kv.2.length : ℚ) / n).sum
      = (((m.map fun kv => kv.2.length).sum : ℕ) : ℚ) / n := by
  induction m with
  | nil => simp
  | cons kv t ih =>
    simp only [List.map_cons, List.sum_cons, ih, Nat.cast_add]
    rw [div_add_div_same]

/-- C8: the bucket sizes of the delay index sum exactly to nsky, hence
summing bucket_size / nsky over all populated keys equals 1 as an exact
rational identity. -/
theorem C8_density_normalization (keys : List (List ℤ)) (hne : keys ≠ []) :
    ((delays2indsMap keys).map fun kv => kv.2.length).sum = keys.length
    ∧ ((delays2indsMap keys).map fun kv =>
        (kv.2.length : ℚ) / (keys.length : ℚ)).sum = 1 := by
  refine ⟨sum_lengths_delays2indsMap keys, ?_⟩
  rw [sum_lengths_div, sum_lengths_delays2indsMap keys]
  have h0 : (keys.length : ℚ) ≠ 0 :=
    Nat.cast_ne_zero.2 (fun h => hne (List.length_eq_zero.1 h))
  exact div_self h0

/-- C8 witness: the concrete two-sample configuration. -/
theorem C8_density_normalization_witness :
    ((delays2indsMap exKeys).map fun kv => kv.2.length).sum = exKeys.length
    ∧ ((delays2indsMap exKeys).map fun kv =>
        (kv.2.length : ℚ) / (exKeys.length : ℚ)).sum = 1 :=
  C8_density_normalization exKeys (by decide)

end SkyDict

/-! ### C4: dense array addressing -/

namespace SkyDict

/-- C4 counterexample: in the two-sample configuration with delay range
[-1, 1] (array extent 3), the key -1 is stored and looked up at the cell
2 (raw negative key wrapped by Python indexing), not at the cell 0 that
key-minus-minimum addressing would give: the dense prior holds the
bucket density 1/2 at cell 2 and 0 at cell 0. -/
theorem C4_counterexample :
    npCellList (skyDictSizes exKeys) [-1] = some [2]
    ∧ specOffsetCell (skyDictMinDelay exKeys) [-1] = [0]
    ∧ ([2] : List ℕ) ≠ [0]
    ∧ skyPriorArr 1 1 exKeys [2] = 1/2
    ∧ skyPriorArr 1 1 exKeys [0] = 0 := by
  refine ⟨by decide, by decide, by decide, ?_, ?_⟩ <;>
    norm_num [skyPriorArr, denseWrite, delays2indsMap, delays2indsMapAux, addKey,
      npCellList, npIndex, skyDictSizes, arrSizes, skyDictMinDelay, skyDictMaxDelay,
      ewMin, ewMax, mapKeys, Function.update, exKeys, Int.toNat]

/-- C4 amended: both dense arrays are addressed by raw-key numpy
indexing with Python negative-index wraparound (a nonnegative key
component addresses itself, a negative one wraps to component + extent),
not by key minus the recorded minimum; whenever every axis of the delay
range contains 0, this addressing is defined (no index error) and
injective over the range, so construction-time writes and query-time
reads for the same key always address the same cell. -/
theorem C4_amended_raw_key_addressing (mn mx k k2 : List ℤ)
    (hb : originOK mn mx = true)
    (h1 : inRangeB mn mx k = true) (h2 : inRangeB mn mx k2 = true) :
    (npCellList (arrSizes mn mx) k).isSome = true
    ∧ (npCellList (arrSizes mn mx) k = npCellList (arrSizes mn mx) k2 → k = k2) :=
  ⟨npCellList_isSome mn mx k hb h1, npCellList_inj mn mx k k2 hb h1 h2⟩

/-- C4 witness: the amended addressing statement at the concrete range
[-1, 1] with keys -1 and 0. -/
theorem C4_amended_raw_key_addressing_witness :
    (npCellList (arrSizes [-1] [1]) [-1]).isSome = true
    ∧ (npCellList (arrSizes [-1] [1]) [-1] = npCellList (arrSizes [-1] [1]) [0] →
        ([-1] : List ℤ) = [0]) :=
  C4_amended_raw_key_addressing [-1] [1] [-1] [0] (by decide) (by decide) (by decide)

end SkyDict

/-! ### C6, C7: round-robin cursors -/

namespace SkyDict

theorem range_map_get (l : List ℕ) :
    (List.range l.length).map l.get? = l.map some := by
  induction l with
  | nil => simp
  | cons a t ih =>
    rw [List.length_cons, List.range_succ_eq_map, List.map_cons, List.map_map,
      List.map_cons]
    have hcomp : (a :: t).get? ∘ Nat.succ = t.get? := by
      funext i
      rfl
    rw [hcomp, ih]
    rfl

theorem get_zero_eq_head (l : List ℕ) : l.get? 0 = l.head? := by
  cases l <;> rfl

end SkyDict

namespace SkyDict

theorem runQueries_replicate (prior : List ℕ → ℚ) (gens : List ℕ → List ℕ)
    (mn mx : List ℤ) (sz : List ℕ) (k : List ℤ) (c : List ℕ) (B : List ℕ)
    (hr : inRangeB mn mx k = true) (hc : npCellList sz k = some c)
    (hp : 0 < prior c) (hg : gens c = B) :
    ∀ (r : ℕ) (st : List ℕ → ℕ),
      (runQueries prior gens mn mx sz (List.replicate r k) st).1.inds
        = (List.range r).map (fun j => B.get? ((st c + j) % B.length)) := by
  intro r
  induction r with
  | zero =>
    intro st
    simp [runQueries]
  | succ r ih =>
    intro st
    rw [List.replicate_succ]
    have hrun : (runQueries prior gens mn mx sz (k :: List.replicate r k) st).1.inds
        = (gens c).get? (st c % (gens c).length) ::
            (runQueries prior gens mn mx sz (List.replicate r k)
              (Function.update st c (st c + 1))).1.inds := by
      simp only [runQueries, hr, if_true, hc, if_pos hp]
    rw [hrun, hg, ih (Function.update st c (st c + 1)), List.range_succ_eq_map,
      List.map_cons, List.map_map]
    simp only [Function.comp_apply, Function.update_same, Nat.add_zero]
    congr 1
    refine List.map_congr_left (fun j hj => ?_)
    congr 2
    omega

/-- C6: for every delay bin key whose bucket holds k sample indices, the
k+1 consecutive queries carrying exactly that key return the k bucket
members in their original insertion order followed by the first member
again (the cursor wraps). -/
theorem C6_round_robin (fs : ℚ) (d : ℕ) (keys : List (List ℤ)) (k : List ℤ)
    (hfs : 0 < fs) (hU : ∀ x ∈ keys, x.length = d)
    (hb : originOK (skyDictMinDelay keys) (skyDictMaxDelay keys) = true)
    (hk : k ∈ keys) :
    (getSkyIndsAndPrior fs d keys
        (List.replicate ((bucket (delays2indsMap keys) k).length + 1) k)).inds
      = (bucket (delays2indsMap keys) k).map some
        ++ [(bucket (delays2indsMap keys) k).head?] := by
  have hin : inRangeB (skyDictMinDelay keys) (skyDictMaxDelay keys) k = true :=
    inRangeB_of_mem_keys keys d hU k hk
  obtain ⟨c, hc⟩ := Option.isSome_iff_exists.1
    (npCellList_isSome (skyDictMinDelay keys) (skyDictMaxDelay keys) k hb hin)
  have hval := skyPriorArr_at_mem fs d keys k c hU hb hk hc
  have hgen := genArr_at_mem keys d k c hU hb hk hc
  have hBne : bucket (delays2indsMap keys) k ≠ [] := bucket_ne_nil_of_mem keys k hk
  have hkeysne : keys ≠ [] := fun h => by rw [h] at hk; exact List.not_mem_nil k hk
  have hpos : 0 < skyPriorArr fs d keys c := by
    rw [hval]
    have hB : (0:ℚ) < ((bucket (delays2indsMap keys) k).length : ℚ) := by
      have := List.length_pos.2 hBne
      exact_mod_cast this
    have hn : (0:ℚ) < (keys.length : ℚ) := by
      have := List.length_pos.2 hkeysne
      exact_mod_cast this
    exact div_pos (mul_pos (pow_pos hfs d) hB) hn
  have hrep := runQueries_replicate (skyPriorArr fs d keys) (genArr keys)
    (skyDictMinDelay keys) (skyDictMaxDelay keys) (skyDictSizes keys) k c
    (bucket (delays2indsMap keys) k) hin hc hpos hgen
    ((bucket (delays2indsMap keys) k).length + 1) (fun _ => 0)
  rw [getSkyIndsAndPrior] at *
  rw [hrep]
  have hL : 0 < (bucket (delays2indsMap keys) k).length := List.length_pos.2 hBne
  rw [List.range_succ, List.map_append, List.map_singleton]
  congr 1
  · rw [show ((List.range (bucket (delays2indsMap keys) k).length).map
        fun j => (bucket (delays2indsMap keys) k).get?
          (((fun _ => 0) c + j) % (bucket (delays2indsMap keys) k).length))
      = (List.range (bucket (delays2indsMap keys) k).length).map
          (bucket (delays2indsMap keys) k).get? from
      List.map_congr_left (fun j hj => by
        have hjl : j < (bucket (delays2indsMap keys) k).length := List.mem_range.1 hj
        congr 1
        simpa using Nat.mod_eq_of_lt hjl)]
    exact range_map_get _
  · rw [show ((fun _ => 0) c + (bucket (delays2indsMap keys) k).length)
        % (bucket (delays2indsMap keys) k).length = 0 by simp]
    rw [get_zero_eq_head]

theorem runQueries_inds_isSome (prior : List ℕ → ℚ) (gens : List ℕ → List ℕ)
    (mn mx : List ℤ) (sz : List ℕ) (hgen : ∀ c, 0 < prior c → gens c ≠ []) :
    ∀ (qs : List (List ℤ)) (st : List ℕ → ℕ),
      (∀ x ∈ (runQueries prior gens mn mx sz qs st).1.inds, x.isSome = true)
      ∧ (∀ c, gens c = [] → (runQueries prior gens mn mx sz qs st).2 c = st c) := by
  intro qs
  induction qs with
  | nil =>
    intro st
    exact ⟨by simp [runQueries], fun c _ => rfl⟩
  | cons q qs ih =>
    intro st
    by_cases hr : inRangeB mn mx q = true
    · rcases hcell : npCellList sz q with _ | c
      · have hrun : runQueries prior gens mn mx sz (q :: qs) st =
            (⟨(runQueries prior gens mn mx sz qs st).1.inds,
              (runQueries prior gens mn mx sz qs st).1.priors,
              false :: (runQueries prior gens mn mx sz qs st).1.mask⟩,
             (runQueries prior gens mn mx sz qs st).2) := by
          simp only [runQueries, hr, if_true, hcell]
        rw [hrun]
        exact ih st
      · by_cases hp : 0 < prior c
        · have hgc : gens c ≠ [] := hgen c hp
          have hrun : runQueries prior gens mn mx sz (q :: qs) st =
              (⟨(gens c).get? (st c % (gens c).length) ::
                  (runQueries prior gens mn mx sz qs
                    (Function.update st c (st c + 1))).1.inds,
                prior c :: (runQueries prior gens mn mx sz qs
                    (Function.update st c (st c + 1))).1.priors,
                true :: (runQueries prior gens mn mx sz qs
                    (Function.update st c (st c + 1))).1.mask⟩,
               (runQueries prior gens mn mx sz qs
                  (Function.update st c (st c + 1))).2) := by
            simp only [runQueries, hr, if_true, hcell, if_pos hp]
          rw [hrun]
          obtain ⟨ih1, ih2⟩ := ih (Function.update st c (st c + 1))
          constructor
          · intro x hx
            rcases List.mem_cons.1 hx with rfl | hx2
            · have hlt : st c % (gens c).length < (gens c).length :=
                Nat.mod_lt _ (List.length_pos.2 hgc)
              rw [List.get?_eq_get hlt]
              rfl
            · exact ih1 x hx2
          · intro c2 hc2
            have hne : c2 ≠ c := fun h => hgc (h ▸ hc2)
            rw [ih2 c2 hc2, Function.update_noteq hne]
        · have hrun : runQueries prior gens mn mx sz (q :: qs) st =
              (⟨(runQueries prior gens mn mx sz qs st).1.inds,
                (runQueries prior gens mn mx sz qs st).1.priors,
                false :: (runQueries prior gens mn mx sz qs st).1.mask⟩,
               (runQueries prior gens mn mx sz qs st).2) := by
            simp only [runQueries, hr, if_true, hcell, if_neg hp]
          rw [hrun]
          exact ih st
    · have hrn : inRangeB mn mx q = false := by
        revert hr
        cases inRangeB mn mx q <;> simp
      have hrun : runQueries prior gens mn mx sz (q :: qs) st =
          (⟨(runQueries prior gens mn mx sz qs st).1.inds,
            (runQueries prior gens mn mx sz qs st).1.priors,
            false :: (runQueries prior gens mn mx sz qs st).1.mask⟩,
           (runQueries prior gens mn mx sz qs st).2) := by
        simp [runQueries, hrn]
      rw [hrun]
      exact ih st

/-- C7: a cursor is advanced only for queries that passed the
nonzero-density filter, so the exhausted-iterator sentinel of an
unpopulated cell is never advanced and no call to get_sky_inds_and_prior
can raise a cursor-exhaustion StopIteration, for any input delays: every
returned sample entry is an actual value, and the final cursor state is
untouched at every sentinel cell. -/
theorem C7_no_cursor_exhaustion (fs : ℚ) (d : ℕ) (keys queries : List (List ℤ)) :
    (∀ x ∈ (getSkyIndsAndPrior fs d keys queries).inds, x.isSome = true)
    ∧ (∀ c, genArr keys c = [] → queryFinalState fs d keys queries c = 0) :=
  runQueries_inds_isSome (skyPriorArr fs d keys) (genArr keys) (skyDictMinDelay keys)
    (skyDictMaxDelay keys) (skyDictSizes keys)
    (fun c hp => genArr_ne_nil_of_prior_pos fs d keys c hp) queries (fun _ => 0)

end SkyDict

namespace SkyDict

/-- C6 witness: the concrete bucket of key [-1] (a single sample), with
two consecutive queries returning that sample and then wrapping. -/
theorem C6_round_robin_witness :
    (getSkyIndsAndPrior 1 1 exKeys
        (List.replicate ((bucket (delays2indsMap exKeys) [-1]).length + 1) [-1])).inds
      = (bucket (delays2indsMap exKeys) [-1]).map some
        ++ [(bucket (delays2indsMap exKeys) [-1]).head?] :=
  C6_round_robin 1 1 exKeys [-1] (by norm_num) (by decide) (by decide) (by decide)

end SkyDict

/-! ### C3: the weights of the conditional delay-prior histograms -/

namespace SkyDict

theorem range_map_getD {α : Type} (l : List α) (dflt : α) :
    (List.range l.length).map (fun j => l.getD j dflt) = l := by
  induction l with
  | nil => simp
  | cons a t ih =>
    rw [List.length_cons, List.range_succ_eq_map, List.map_cons, List.map_map]
    have hcomp : ((fun j => (a :: t).getD j dflt) ∘ Nat.succ) = fun j => t.getD j dflt := by
      funext i
      rfl
    rw [hcomp, ih]
    rfl

theorem sumSqAll_zero_rows (order : List ℕ) :
    sumSqAll (order.map fun _ => ((0 : ℚ), (0 : ℚ))) = 0 := by
  rw [sumSqAll]
  refine List.sum_eq_zero (fun x hx => ?_)
  simp only [List.map_map, List.mem_map] at hx
  obtain ⟨j, _, rfl⟩ := hx
  norm_num

theorem histWeight_eq_spec_of_perm (coeffs : List (List (ℚ × ℚ))) (order : List ℕ)
    (n : ℕ) (i : ℕ) (hU : ∀ row ∈ coeffs, row.length = n) (hlen : order.length = n)
    (hnd : order.Nodup) (hsub : ∀ x ∈ order, x < n) :
    histWeightSpecVersion coeffs order i = histWeight coeffs i := by
  rw [histWeightSpecVersion, histWeight]
  rcases lt_or_ge i coeffs.length with hi | hi
  · have hrow : coeffs.getD i [] ∈ coeffs := by
      rw [List.getD_eq_getElem _ _ hi]
      exact List.getElem_mem hi
    have hrn : (coeffs.getD i []).length = n := hU _ hrow
    have hperm : order.Perm (List.range n) := by
      refine List.Subperm.perm_of_length_le
        (List.subperm_of_subset hnd (fun x hx => List.mem_range.2 (hsub x hx))) ?_
      rw [List.length_range, hlen]
    have hmap : (order.map fun j => (coeffs.getD i []).getD j (0, 0)).Perm
        ((List.range n).map fun j => (coeffs.getD i []).getD j (0, 0)) :=
      hperm.map _
    have hsum : sumSqAll (order.map fun j => (coeffs.getD i []).getD j (0, 0))
        = sumSqAll ((List.range n).map fun j => (coeffs.getD i []).getD j (0, 0)) := by
      rw [sumSqAll, sumSqAll]
      exact List.Perm.sum_eq (hmap.map _)
    rw [normCubed, normCubed, hsum, ← hrn, range_map_getD]
  · have hrow : coeffs.getD i [] = [] := List.getD_eq_default _ _ hi
    rw [hrow]
    have : (order.map fun j => ([] : List (ℚ × ℚ)).getD j (0, 0))
        = order.map fun _ => ((0 : ℚ), (0 : ℚ)) := by
      refine List.map_congr_left (fun j _ => ?_)
      rfl
    rw [this, normCubed, normCubed, sumSqAll_zero_rows]
    rw [show sumSqAll ([] : List (ℚ × ℚ)) = 0 from rfl]

/-- C3 counterexample: with three detectors, one sample whose antenna
coefficients are (3,4), (0,0), (12,0) and all geocenter delays zero, the
histogram entry of the two-detector permutation (0, 1) at the sample's
delay key weighs the sample by the full-network norm cubed
(sqrt 169 ^ 3 = 2197), not by the norm over the permutation's detectors
only (sqrt 25 ^ 3 = 125): coefficients of the detector outside the
permutation do contribute. -/
theorem C3_counterexample :
    delaysPriorEntry 1 [[(3, 4), (0, 0), (12, 0)]] [[0], [0], [0]] 1 [0, 1]
        (permDelayKey 1 [[0], [0], [0]] [0, 1] 0) = 2197
    ∧ delaysPriorEntrySpecVersion 1 [[(3, 4), (0, 0), (12, 0)]] [[0], [0], [0]] 1 [0, 1]
        (permDelayKey 1 [[0], [0], [0]] [0, 1] 0) = 125
    ∧ (2197 : ℝ) ≠ 125 := by
  have hfilter : ((List.range 1).filter fun i =>
      decide (permDelayKey 1 [[0], [0], [0]] [0, 1] i
        = permDelayKey 1 [[0], [0], [0]] [0, 1] 0)) = [0] := by
    rw [show List.range 1 = [0] from rfl, List.filter_cons_of_pos (by simp)]
    rfl
  have h2197 : normCubed [((3 : ℚ), (4 : ℚ)), (0, 0), (12, 0)] = 2197 := by
    rw [normCubed,
      show ((sumSqAll [((3 : ℚ), (4 : ℚ)), (0, 0), (12, 0)] : ℚ) : ℝ) = (13 : ℝ) ^ 2 by
        norm_num [sumSqAll],
      Real.sqrt_sq (by norm_num : (0 : ℝ) ≤ 13)]
    norm_num
  have h125 : normCubed [((3 : ℚ), (4 : ℚ)), (0, 0)] = 125 := by
    rw [normCubed,
      show ((sumSqAll [((3 : ℚ), (4 : ℚ)), (0, 0)] : ℚ) : ℝ) = (5 : ℝ) ^ 2 by
        norm_num [sumSqAll],
      Real.sqrt_sq (by norm_num : (0 : ℝ) ≤ 5)]
    norm_num
  refine ⟨?_, ?_, by norm_num⟩
  · rw [delaysPriorEntry, hfilter, List.map_cons, List.map_nil, List.sum_cons,
      List.sum_nil, add_zero, histWeight]
    exact h2197
  · rw [delaysPriorEntrySpecVersion, hfilter, List.map_cons, List.map_nil,
      List.sum_cons, List.sum_nil, add_zero, histWeightSpecVersion]
    exact h125

/-- C3 amended: the weight given to each sky sample in every
permutation's histogram is the cube of the Euclidean norm of the stacked
antenna-response coefficients of ALL the network's detectors, the same
weights for every permutation; for the full-network permutations this
coincides with the spec's per-permutation weight (the norm is invariant
under reordering the detectors), but for proper subsets the detectors
outside the permutation do contribute. -/
theorem C3_amended_full_network_weights (fs : ℚ) (coeffs : List (List (ℚ × ℚ)))
    (gd : List (List ℚ)) (nsky : ℕ) (order : List ℕ) (key : List ℤ) (n : ℕ)
    (hU : ∀ row ∈ coeffs, row.length = n) (hlen : order.length = n)
    (hnd : order.Nodup) (hsub : ∀ x ∈ order, x < n) :
    delaysPriorEntrySpecVersion fs coeffs gd nsky order key
      = delaysPriorEntry fs coeffs gd nsky order key := by
  rw [delaysPriorEntrySpecVersion, delaysPriorEntry]
  refine congrArg List.sum (List.map_congr_left (fun i _ => ?_))
  exact histWeight_eq_spec_of_perm coeffs order n i hU hlen hnd hsub

/-- C3 amended witness: the full-network permutation (0, 1, 2) of the
three-detector single-sample configuration, hypotheses discharged. -/
theorem C3_amended_full_network_weights_witness :
    delaysPriorEntrySpecVersion 1 [[(3, 4), (0, 0), (12, 0)]] [[0], [0], [0]] 1 [0, 1, 2]
        [0, 0]
      = delaysPriorEntry 1 [[(3, 4), (0, 0), (12, 0)]] [[0], [0], [0]] 1 [0, 1, 2]
        [0, 0] :=
  C3_amended_full_network_weights 1 [[(3, 4), (0, 0), (12, 0)]] [[0], [0], [0]] 1
    [0, 1, 2] [0, 0] 3 (by decide) (by decide) (by decide) (by decide)

end SkyDict

/-! ### C9: the resampling range-mismatch error -/

namespace SkyDict

theorem npIsClose_self (a : ℚ) : npIsClose a a = true := by
  simp only [npIsClose, decide_eq_true_eq, sub_self, abs_zero]
  positivity

theorem getD_range_map (f : ℕ → ℚ) (n i : ℕ) (h : i < n) :
    ((List.range n).map f).getD i 0 = f i := by
  rw [List.getD_eq_getElem?_getD, List.getElem?_map, List.getElem?_range h]
  rfl

theorem resampled_spacing (t0 q : ℚ) (n : ℕ) (h : 2 ≤ n) :
    ((List.range n).map fun (i : ℕ) => t0 + (i : ℚ) * q).getD 1 0
      - ((List.range n).map fun (i : ℕ) => t0 + (i : ℚ) * q).getD 0 0 = q := by
  rw [getD_range_map _ _ 1 (by omega), getD_range_map _ _ 0 (by omega)]
  push_cast
  ring

/-- C9: resample_timeseries raises the range-mismatch ValueError exactly
when, after resampling, the grid spacing is not within floating-point
tolerance of 1 / f_sampling; when f_sampling times the input spacing
equals 1 exactly, the call never raises and returns the (optionally
windowed) series on the unchanged grid.  The side condition requires at
least two resampled points (with fewer, the source raises an IndexError
while reading times[1] instead). -/
theorem C9_resample_range_mismatch (fs : ℚ) (prim : List ℚ → ℕ → List ℚ) (w : ℕ → ℚ)
    (useWindow : Bool) (ts times : List ℚ) (hfs : 0 < fs)
    (hnum : fs * (times.getD 1 0 - times.getD 0 0) = 1 ∨
      2 ≤ (⌊(times.length : ℚ) * (fs * (times.getD 1 0 - times.getD 0 0))⌋).toNat) :
    (resampleTimeseries fs prim w useWindow ts times = .error "ValueError" ↔
      npIsClose (1 / fs)
        (if fs * (times.getD 1 0 - times.getD 0 0) = 1 then
          times.getD 1 0 - times.getD 0 0
         else (times.getD 1 0 - times.getD 0 0) * (ts.length : ℚ)
            / (((⌊(times.length : ℚ) * (fs * (times.getD 1 0 - times.getD 0 0))⌋).toNat : ℚ)))
        = false)
    ∧ (fs * (times.getD 1 0 - times.getD 0 0) = 1 →
        resampleTimeseries fs prim w useWindow ts times
          = .ok ((if useWindow then applyWindow w ts else ts), times)) := by
  by_cases hr : fs * (times.getD 1 0 - times.getD 0 0) = 1
  · have hdt : times.getD 1 0 - times.getD 0 0 = 1 / fs :=
      eq_one_div_of_mul_eq_one_left (by rw [mul_comm] at hr; exact hr)
    have hok : resampleTimeseries fs prim w useWindow ts times
        = .ok ((if useWindow then applyWindow w ts else ts), times) := by
      simp only [resampleTimeseries, hr, if_true]
    refine ⟨?_, fun _ => hok⟩
    rw [hok, if_pos hr, hdt, npIsClose_self]
    simp
  · rcases hnum with hnum | hnum
    · exact absurd hnum hr
    · refine ⟨?_, fun h => absurd h hr⟩
      rw [if_neg hr]
      simp only [resampleTimeseries]
      rw [if_neg hr, if_pos hnum, resampled_spacing _ _ _ hnum]
      cases hcl : npIsClose (1 / fs)
          ((times.getD 1 0 - times.getD 0 0) * (ts.length : ℚ)
            / (((⌊(times.length : ℚ)
                * (fs * (times.getD 1 0 - times.getD 0 0))⌋).toNat : ℚ))) <;>
        simp [hcl]

/-- C9 witness: f_sampling = 2 on the exactly commensurate grid
(0, 1/2, 1), hypotheses discharged. -/
theorem C9_resample_range_mismatch_witness :
    (resampleTimeseries 2 (fun l _ => l) (fun _ => 1) false [1, 2, 3] [0, 1/2, 1]
        = .error "ValueError" ↔
      npIsClose (1 / 2)
        (if (2 : ℚ) * (([0, 1/2, 1] : List ℚ).getD 1 0 - ([0, 1/2, 1] : List ℚ).getD 0 0)
            = 1 then
          ([0, 1/2, 1] : List ℚ).getD 1 0 - ([0, 1/2, 1] : List ℚ).getD 0 0
         else (([0, 1/2, 1] : List ℚ).getD 1 0 - ([0, 1/2, 1] : List ℚ).getD 0 0)
            * (([1, 2, 3] : List ℚ).length : ℚ)
            / (((⌊(([0, 1/2, 1] : List ℚ).length : ℚ)
                * ((2 : ℚ) * (([0, 1/2, 1] : List ℚ).getD 1 0
                  - ([0, 1/2, 1] : List ℚ).getD 0 0))⌋).toNat : ℚ)))
        = false)
    ∧ ((2 : ℚ) * (([0, 1/2, 1] : List ℚ).getD 1 0 - ([0, 1/2, 1] : List ℚ).getD 0 0) = 1 →
        resampleTimeseries 2 (fun l _ => l) (fun _ => 1) false [1, 2, 3] [0, 1/2, 1]
          = .ok ((if false then applyWindow (fun _ => 1) [1, 2, 3] else [1, 2, 3]),
              [0, 1/2, 1])) :=
  C9_resample_range_mismatch 2 (fun l _ => l) (fun _ => 1) false [1, 2, 3] [0, 1/2, 1]
    (by norm_num) (Or.inl (by norm_num [List.getD]))

end SkyDict

/-! ### C10: staged construction -/

namespace SkyDict

/-- C10 counterexample: a well-formed single-detector network with
positive f_sampling and positive nsky does not construct successfully,
and does not fail fast either: sky samples, antenna coefficients,
geocenter delays, delays and the delay index are all built before
np.min raises on the empty key array (with one detector,
zip(*discretize(delays)) yields no keys). -/
theorem C10_counterexample :
    skyDictInit ["H"] 1 1 (fun _ => (0, 0)) (fun _ => some (fun _ => ((0, 0), 0)))
      = .error ("min_max_delay",
          ["sky_samples", "fplus_fcross_0", "geocenter_delays", "delays",
           "delays2inds_map"]) := by
  rfl

/-- C10 amended: construction performs no up-front validation and does
not fail fast: an unknown detector identifier fails only at the
antenna-coefficient stage, after the sky samples are built; a zero
sample count, and also a well-formed single-detector network, fail only
at the delay-range reduction, after sky samples, antenna coefficients,
geocenter delays, delays and the delay index have been built.  For
networks of at least two known detectors with positive nsky whose
observed delay keys are in bounds for the dense arrays, construction
succeeds and builds all derived structures. -/
theorem C10_amended_staged_init (dets : List String) (fs : ℚ) (nsky : ℕ)
    (halton : ℕ → ℚ × ℚ) (geom : String → Option ((ℚ × ℚ) → (ℚ × ℚ) × ℚ)) :
    ((∃ det ∈ dets, geom det = none) →
      skyDictInit dets fs nsky halton geom = .error ("fplus_fcross_0", ["sky_samples"]))
    ∧ ((∀ det ∈ dets, (geom det).isSome) → dets ≠ [] →
        (nsky = 0 ∨ dets.length = 1) →
        skyDictInit dets fs nsky halton geom
          = .error ("min_max_delay",
              ["sky_samples", "fplus_fcross_0", "geocenter_delays", "delays",
               "delays2inds_map"]))
    ∧ ((∀ det ∈ dets, (geom det).isSome) → 2 ≤ dets.length → 0 < nsky →
        ((mapKeys (delays2indsMap (initKeys dets fs nsky halton geom))).all fun k =>
          (npCellList
            (arrSizes
              (ewMin (mapKeys (delays2indsMap (initKeys dets fs nsky halton geom))))
              (ewMax (mapKeys (delays2indsMap (initKeys dets fs nsky halton geom)))))
            k).isSome) = true →
        skyDictInit dets fs nsky halton geom
          = .ok ["sky_samples", "fplus_fcross_0", "geocenter_delays", "delays",
              "delays2inds_map", "min_max_delay", "delays_bounds", "delays_prior",
              "ind_generators", "sky_prior"]) := by
  refine ⟨?_, ?_, ?_⟩
  · rintro ⟨det, hdet, hnone⟩
    have hall : (dets.all fun det => (geom det).isSome) = false := by
      rw [List.all_eq_false]
      exact ⟨det, hdet, by simp [hnone]⟩
    simp only [skyDictInit, hall]
    rfl
  · intro hsome hne hdeg
    have hall : (dets.all fun det => (geom det).isSome) = true :=
      List.all_eq_true.2 (fun det hdet => hsome det hdet)
    rcases dets with _ | ⟨det0, rest⟩
    · exact absurd rfl hne
    · have hkeys : initKeys (det0 :: rest) fs nsky halton geom = [] := by
        rcases hdeg with h0 | h1
        · rw [initKeys]
          by_cases hrest : rest = []
          · rw [if_pos hrest]
          · rw [if_neg hrest, h0]
            rfl
        · have hrest : rest = [] := by
            simp only [List.length_cons] at h1
            exact List.length_eq_zero.1 (by omega)
          rw [initKeys, if_pos hrest]
      simp only [skyDictInit, hall, if_true, hkeys]
      rfl
  · intro hsome hlen hnsky hbounds
    have hall : (dets.all fun det => (geom det).isSome) = true :=
      List.all_eq_true.2 (fun det hdet => hsome det hdet)
    rcases dets with _ | ⟨det0, rest⟩
    · simp at hlen
    · have hrest : rest ≠ [] := by
        intro h
        rw [h] at hlen
        simp at hlen
      have hkeysne : initKeys (det0 :: rest) fs nsky halton geom ≠ [] := by
        rw [initKeys, if_neg hrest]
        intro h
        have h0 : (0 : ℕ) ∈ List.range nsky := List.mem_range.2 hnsky
        have : (List.range nsky).map (fun i => rest.map fun det =>
            discretize fs (initDelayRow geom halton det i
              - initDelayRow geom halton det0 i)) ≠ [] := by
          intro hc
          rw [List.map_eq_nil] at hc
          rw [hc] at h0
          exact List.not_mem_nil 0 h0
        exact this h
      have hmapne : delays2indsMap (initKeys (det0 :: rest) fs nsky halton geom) ≠ [] := by
        intro h
        rcases List.exists_mem_of_ne_nil _ hkeysne with ⟨k, hk⟩
        have := (mem_mapKeys_delays2indsMap _ k).2 hk
        rw [h] at this
        simp [mapKeys] at this
      simp only [skyDictInit, hall, if_true]
      rw [if_neg hmapne, if_pos hbounds]

end SkyDict
